import Mathlib

/-!
# taskmgr: task intake, dispatch and process lifecycle

A shallow embedding of `main.go`.  The program is concurrent: one goroutine per
request runs `handle`, every `handle` starts one `dispatcher` goroutine, and
`main` waits in a `select`.  The embedding is a small-step interleaving
semantics: a state `Sys`, scheduler choices `Action`, and an executable
`step` function that runs one statement group of one goroutine.  The unbuffered
`taskChannel` is modelled as a rendezvous (`Action.handoff`).

Two things the source does not fix are parameters of the semantics, collected in
`Platform`: the behaviour of the library call `json.Unmarshal` on a request body, and the
width of Go's `int` (32 or 64 bits), at which the counter `dispatched` wraps around.
-/

namespace Taskmgr

/-! ## Data -/

/-- Modelled from the spec: the declaration of type `Task` is not in `main.go`
(which only uses its fields `TaskName` and `TaskDescription`); the spec gives
`Task = { name: string, description: string }`. -/
structure Task where
  TaskName : String
  TaskDescription : String
deriving DecidableEq, Repr

/-- The struct `Response` of `main.go`; both fields are unexported. -/
structure Response where
  name : String
  outcome : String
deriving DecidableEq, Repr

/-- The call `json.Marshal(outcome)` on a `Response`: `encoding/json` skips unexported
fields, so the encoding is the empty object and the error is nil. -/
def marshalResponse (_r : Response) : Except String String :=
  .ok "\x7b\x7d"

/-- What `handle` has written to its `http.ResponseWriter`. -/
structure ResponseWriter where
  header : List (String × String)
  status : Option Nat
  body : List UInt8
deriving DecidableEq, Repr

/-- A response writer nothing has been written to. -/
def ResponseWriter.fresh : ResponseWriter := ⟨[], none, []⟩

/-- The call `w.Header().Set(k, v)`: replaces the values stored under `k`. -/
def ResponseWriter.headerSet (w : ResponseWriter) (k v : String) : ResponseWriter :=
  { w with header := w.header.filter (fun p => p.1 != k) ++ [(k, v)] }

/-- The call `w.WriteHeader(code)`: the first status code written wins. -/
def ResponseWriter.writeHeader (w : ResponseWriter) (code : Nat) : ResponseWriter :=
  match w.status with
  | none => { w with status := some code }
  | some _ => w

/-- The constant `http.StatusOK`. -/
def StatusOK : Nat := 200

/-- The two signals registered with `signal.Notify`. -/
inductive Signal where
  | interrupt
  | sigterm
deriving DecidableEq, Repr

/-- Formatting of a signal with `%v`. -/
def Signal.text : Signal → String
  | .interrupt => "interrupt"
  | .sigterm => "terminated"

/-- How the process ended: a call of `os.Exit` (also reached through `log.Fatal`,
which exits with 1), or `main` returning. -/
inductive Termination where
  | osExit (code : Int)
  | mainReturned
deriving DecidableEq, Repr

/-- Exit status of the process.  A Go program whose `main` returns exits with status 0. -/
def Termination.exitStatus : Termination → Int
  | .osExit code => code
  | .mainReturned => 0

/-- Width of the Go type `int`, which the language fixes only as 32 or 64 bits. -/
inductive IntSize where
  | bits32
  | bits64
deriving DecidableEq, Repr

/-- Half of the number of values of an `int`: its values are the integers from `-half` up to
`half - 1`. -/
def IntSize.half : IntSize → Nat
  | .bits32 => 2 ^ 31
  | .bits64 => 2 ^ 63

/-- The value of an integer expression stored in an `int`: signed overflow in Go wraps around
in two's complement. -/
def wrapInt (size : IntSize) (x : Int) : Int :=
  (x + (size.half : Int)) % (2 * (size.half : Int)) - (size.half : Int)

/-- What the source leaves to the platform: the decoding of a request body by
`json.Unmarshal(reqBody, &task)` (an error, or the decoded task), and the width of `int`. -/
structure Platform where
  unmarshal : List UInt8 → Except String Task
  intSize : IntSize

/-! ## Goroutine states -/

/-- Program points of one execution of `handle` (line numbers of `main.go`). -/
inductive HPc where
  /-- lines 78-89: about to read the body, pf it and print the decoded fields -/
  | decode
  /-- lines 91-92: task decoded, about to run `go dispatcher(taskChannel)` -/
  | spawn (task : Task)
  /-- lines 94-95: dispatcher started, at (or blocked in) `taskChannel <- task` -/
  | push (task : Task)
  /-- lines 97-98: send completed, about to set the header -/
  | setHeader
  /-- line 99: about to write the status code -/
  | writeHeader
  /-- lines 101-110: about to marshal the `Response` -/
  | marshal
  /-- line 112: `handle` has returned -/
  | done
deriving DecidableEq, Repr

/-- One execution of `handle`: the request body it read, its program point and its writer. -/
structure Handler where
  body : List UInt8
  pc : HPc
  w : ResponseWriter
deriving DecidableEq, Repr

/-- Program points of one execution of `dispatcher`. -/
inductive DPc where
  /-- goroutine created, nothing executed yet -/
  | start
  /-- line 123, first half of `dispatched++`: the value `v` has been read -/
  | loaded (v : Int)
  /-- line 123 finished, about to run `dispatchedId := dispatched` -/
  | stored
  /-- line 124 finished, about to print (line 126) -/
  | captured (dispatchedId : Int)
  /-- line 127: blocked in `task := <-taskChannel` -/
  | recv (dispatchedId : Int)
  /-- line 127 finished: about to print and evaluate `dispatched == 1` -/
  | got (dispatchedId : Int) (task : Task)
  /-- line 134: about to evaluate `dispatched == 2` -/
  | test2 (dispatchedId : Int) (task : Task)
  /-- line 137: about to evaluate `dispatched == 3` -/
  | test3 (dispatchedId : Int) (task : Task)
  /-- inside `time.Sleep(secs * time.Second)` -/
  | sleeping (dispatchedId : Int) (task : Task) (secs : Nat)
  /-- line 145 executed, goroutine finished -/
  | finished (dispatchedId : Int) (task : Task) (secs : Nat)
deriving DecidableEq, Repr

/-- One execution of `dispatcher`.  The field `parent` is a ghost: the index of the `handle`
execution whose `go` statement created the goroutine; no step reads it. -/
structure Dispatcher where
  pc : DPc
  parent : Nat
deriving DecidableEq, Repr

/-- State of the goroutine `consume`. -/
inductive Listener where
  /-- after `go consume(errorChannel)`: goroutine created, not yet run -/
  | notStarted
  /-- inside `consumer.ListenAndServe()` -/
  | serving
  /-- after `ListenAndServe` returned `err`: blocked in the send on `errorChannel` -/
  | failed (err : String)
deriving DecidableEq, Repr

/-- State of the whole process. -/
structure Sys where
  /-- the global `dispatched`, a Go `int`: every value written to it is wrapped by `wrapInt` -/
  dispatched : Int
  /-- the executions of `handle`, in order of arrival -/
  handlers : List Handler
  /-- the executions of `dispatcher`, in order of their `go` statements -/
  dispatchers : List Dispatcher
  /-- the goroutine `consume` -/
  listener : Listener
  /-- the buffer (capacity 1) of `interruptChannel` -/
  interrupt : Option Signal
  /-- how the process ended; `none` while it runs -/
  term : Option Termination
  /-- lines printed so far, on standard output or (by `log.Fatal`) on standard error -/
  out : List String
deriving DecidableEq, Repr

/-- The lines `main` and `consumerRoute` print before `main` reaches its `select`. -/
def setupLines : List String :=
  ["setting up consumer", "setting up new mux", "establishing handler",
   "returning consumer router", "establishing error channel", "establishing task channel",
   "establishing system interrupt channel", "establishing system interrupt notification",
   "invoking goroutine consume", "called consume and now waiting"]

/-- The process when `main` reaches its `select` (the Running state): `var dispatched int = 0`,
no request yet, `consume` created. -/
def init : Sys :=
  { dispatched := 0, handlers := [], dispatchers := [], listener := .notStarted,
    interrupt := none, term := none, out := setupLines }

/-- Scheduler choices. -/
inductive Action where
  /-- the goroutine `consume` starts running and enters `ListenAndServe` -/
  | listen
  /-- the call of `ListenAndServe` returns the error `err` -/
  | listenFail (err : String)
  /-- the operating system delivers a registered signal -/
  | signal (sig : Signal)
  /-- the `select` of `main` takes the case `err := <-errorChannel` -/
  | selectErr
  /-- the `select` of `main` takes the case `sig := <-interruptChannel` -/
  | selectSig
  /-- the server accepts a `POST /task` with this body and starts `handle` -/
  | arrive (body : List UInt8)
  /-- the `handle` execution number `i` runs its next statement group -/
  | hStep (i : Nat)
  /-- the `dispatcher` execution number `j` runs its next statement group -/
  | dStep (j : Nat)
  /-- the send of handler `i` meets the receive of dispatcher `j` on `taskChannel` -/
  | handoff (i j : Nat)
deriving DecidableEq, Repr

/-- The value `outcome` built in `handle`. -/
def outcome : Response := { name := "outcome", outcome := "success" }

/-- The call `log.Fatal(err)`: print the error (on standard error) and `os.Exit(1)`. -/
def logFatal (s : Sys) (err : String) : Sys :=
  { s with term := some (.osExit 1), out := s.out ++ [err] }

/-- Next statement group of `handle` execution `i`, currently `h`. -/
def handlerStep (pf : Platform) (s : Sys) (i : Nat)
    (h : Handler) : Option Sys :=
  match h.pc with
  | .decode =>
    let s1 := { s with out := s.out ++ ["getting request body",
                  "attempting to pf request body to json for task"] }
    match pf.unmarshal h.body with
    | .error err => some (logFatal s1 err)
    | .ok task =>
      some { s1 with
        handlers := s.handlers.set i { h with pc := .spawn task },
        out := s1.out ++ ["request task name " ++ task.TaskName,
                          "request task description " ++ task.TaskDescription] }
  | .spawn task =>
    some { s with
      handlers := s.handlers.set i { h with pc := .push task },
      dispatchers := s.dispatchers ++ [{ pc := .start, parent := i }],
      out := s.out ++ ["invoking goroutine dispatcher"] }
  | .push _ => none
  | .setHeader =>
    some { s with
      handlers := s.handlers.set i
        { h with pc := .writeHeader, w := h.w.headerSet "Content-Type" "application/json" },
      out := s.out ++ ["writing response header"] }
  | .writeHeader =>
    some { s with
      handlers := s.handlers.set i { h with pc := .marshal, w := h.w.writeHeader StatusOK } }
  | .marshal =>
    let s1 := { s with out := s.out ++ ["attempting to marshal response"] }
    match marshalResponse outcome with
    | .error err => some (logFatal s1 err)
    | .ok _ =>
      some { s1 with
        handlers := s.handlers.set i { h with pc := .done },
        out := s1.out ++ ["exiting request handler"] }
  | .done => none

/-- Next statement group of `dispatcher` execution `j`, currently `d`.  With `atomic = true`
the statement `dispatched++` runs as one step; with `atomic = false` its read and its write
are separate steps, as for any unsynchronised read-modify-write.  The incremented value is
stored in an `int` of width `size`. -/
def dispatcherStep (atomic : Bool) (size : IntSize) (s : Sys) (j : Nat) (d : Dispatcher) :
    Option Sys :=
  match d.pc with
  | .start =>
    if atomic then
      some { s with
        dispatched := wrapInt size (s.dispatched + 1),
        dispatchers := s.dispatchers.set j { d with pc := .stored } }
    else
      some { s with dispatchers := s.dispatchers.set j { d with pc := .loaded s.dispatched } }
  | .loaded v =>
    some { s with
      dispatched := wrapInt size (v + 1),
      dispatchers := s.dispatchers.set j { d with pc := .stored } }
  | .stored =>
    some { s with dispatchers := s.dispatchers.set j { d with pc := .captured s.dispatched } }
  | .captured dispatchedId =>
    some { s with
      dispatchers := s.dispatchers.set j { d with pc := .recv dispatchedId },
      out := s.out ++ [s!"in dispatched {s.dispatched}"] }
  | .recv _ => none
  | .got dispatchedId task =>
    let s1 := { s with out := s.out ++ ["dispatcher has task " ++ task.TaskName] }
    if s.dispatched = 1 then
      some { s1 with
        dispatchers := s.dispatchers.set j { d with pc := .sleeping dispatchedId task 10 },
        out := s1.out ++ ["sleeping for 10 seconds"] }
    else
      some { s1 with dispatchers := s.dispatchers.set j { d with pc := .test2 dispatchedId task } }
  | .test2 dispatchedId task =>
    if s.dispatched = 2 then
      some { s with
        dispatchers := s.dispatchers.set j { d with pc := .sleeping dispatchedId task 5 },
        out := s.out ++ ["sleeping for 5 seconds"] }
    else
      some { s with dispatchers := s.dispatchers.set j { d with pc := .test3 dispatchedId task } }
  | .test3 dispatchedId task =>
    if s.dispatched = 3 then
      some { s with
        dispatchers := s.dispatchers.set j { d with pc := .sleeping dispatchedId task 7 },
        out := s.out ++ ["sleeping for 7 seconds"] }
    else
      some { s with
        dispatchers := s.dispatchers.set j { d with pc := .sleeping dispatchedId task 15 },
        out := s.out ++ ["sleeping for 15 seconds"] }
  | .sleeping dispatchedId task secs =>
    some { s with
      dispatchers := s.dispatchers.set j { d with pc := .finished dispatchedId task secs },
      out := s.out ++ [s!"exiting dispatched {dispatchedId}"] }
  | .finished _ _ _ => none

/-- One step of the process.  `none`: the action is not enabled (in particular, nothing is
enabled once the process has terminated). -/
def step (atomic : Bool) (pf : Platform) (s : Sys)
    (a : Action) : Option Sys :=
  match s.term with
  | some _ => none
  | none =>
    match a with
    | .listen =>
      match s.listener with
      | .notStarted =>
        some { s with listener := .serving, out := s.out ++ ["listening for requests"] }
      | _ => none
    | .listenFail err =>
      match s.listener with
      | .serving => some { s with listener := .failed err }
      | _ => none
    | .signal sig =>
      match s.interrupt with
      | none => some { s with interrupt := some sig }
      | some _ => some s
    | .selectErr =>
      match s.listener with
      | .failed err =>
        some { s with
          term := some .mainReturned,
          out := s.out ++ ["back in main thread with an error", err] }
      | _ => none
    | .selectSig =>
      match s.interrupt with
      | some sig =>
        some { s with
          interrupt := none,
          term := some (.osExit 0),
          out := s.out ++ [sig.text ++ " signal type received, shutting down gracefully."] }
      | none => none
    | .arrive body =>
      match s.listener with
      | .notStarted => none
      | _ =>
        some { s with
          handlers := s.handlers ++ [{ body := body, pc := .decode, w := .fresh }] }
    | .hStep i =>
      match s.handlers[i]? with
      | some h => handlerStep pf s i h
      | none => none
    | .dStep j =>
      match s.dispatchers[j]? with
      | some d => dispatcherStep atomic pf.intSize s j d
      | none => none
    | .handoff i j =>
      match s.handlers[i]?, s.dispatchers[j]? with
      | some h, some d =>
        match h.pc, d.pc with
        | .push task, .recv dispatchedId =>
          some { s with
            handlers := s.handlers.set i { h with pc := .setHeader },
            dispatchers := s.dispatchers.set j { d with pc := .got dispatchedId task },
            out := s.out ++ ["writing task over task channel"] }
        | _, _ => none
      | _, _ => none

/-- Run a schedule; `none` if some action of it is not enabled. -/
def run (atomic : Bool) (pf : Platform) :
    Sys → List Action → Option Sys
  | s, [] => some s
  | s, a :: as => (step atomic pf s a).bind (fun s1 => run atomic pf s1 as)

/-- The states the process can be in. -/
def Reachable (atomic : Bool) (pf : Platform) (s : Sys) : Prop :=
  ∃ sched, run atomic pf init sched = some s

/-- The fixed lookup of the spec: ordinal 1 → 10, 2 → 5, 3 → 7, any other → 15. -/
def delayFor (ordinal : Int) : Nat :=
  if ordinal = 1 then 10 else if ordinal = 2 then 5 else if ordinal = 3 then 7 else 15

/-- Number of conditions of the if-chain of `dispatcher` that are evaluated when the counter
has the value `c`. -/
def tests (c : Int) : Nat :=
  if c = 1 then 1 else if c = 2 then 2 else 3

/-- The bytes of the request body
`{"task_name":"<name>","task_description":""}` (for a name of ASCII characters). -/
def sampleBody (name : String) : List UInt8 :=
  ("\x7b\x22task_name\x22:\x22" ++ name ++ "\x22,\x22task_description\x22:\x22\x22\x7d").toList.map
    (fun c => UInt8.ofNat c.toNat)

/-- The task that `sampleBody name` encodes. -/
def sampleTask (name : String) : Task :=
  { TaskName := name, TaskDescription := "" }

/-- A decoder for the examples.  It agrees with `json.Unmarshal` on the bodies the examples
use: the empty body is rejected with the error of `encoding/json`, and the bodies
`sampleBody "A"`, `sampleBody "B"` and `sampleBody "C"` decode to their tasks.  Every other
body is treated as malformed here. -/
def sampleUnmarshal (body : List UInt8) : Except String Task :=
  match body with
  | [] => .error "unexpected end of JSON input"
  | _ =>
    if body = sampleBody "A" then .ok (sampleTask "A")
    else if body = sampleBody "B" then .ok (sampleTask "B")
    else if body = sampleBody "C" then .ok (sampleTask "C")
    else .error "invalid character"

/-- The platform of the examples: the sample decoder and a 64-bit `int`. -/
def samplePlatform : Platform :=
  { unmarshal := sampleUnmarshal, intSize := .bits64 }

/-- The sample decoder with a 32-bit `int`. -/
def samplePlatform32 : Platform :=
  { unmarshal := sampleUnmarshal, intSize := .bits32 }

/-! ## Relational reading of a step -/

/-- Local moves of `handle`: they change only the handler itself. -/
inductive HLocal (pf : Platform) (h : Handler) :
    Handler → Prop where
  | decoded (task : Task) : h.pc = .decode → pf.unmarshal h.body = .ok task →
      HLocal pf h { h with pc := .spawn task }
  | setHeader : h.pc = .setHeader →
      HLocal pf h
        { h with pc := .writeHeader, w := h.w.headerSet "Content-Type" "application/json" }
  | writeHeader : h.pc = .writeHeader →
      HLocal pf h { h with pc := .marshal, w := h.w.writeHeader StatusOK }
  | marshalled : h.pc = .marshal → HLocal pf h { h with pc := .done }

/-- Local moves of `dispatcher`; `c` is the counter before the move, the last argument the
counter after it. -/
inductive DLocal (atomic : Bool) (size : IntSize) (c : Int) : DPc → DPc → Int → Prop where
  | incr : atomic = true → DLocal atomic size c .start .stored (wrapInt size (c + 1))
  | load : atomic = false → DLocal atomic size c .start (.loaded c) c
  | store (v : Int) : DLocal atomic size c (.loaded v) .stored (wrapInt size (v + 1))
  | capture : DLocal atomic size c .stored (.captured c) c
  | print (id : Int) : DLocal atomic size c (.captured id) (.recv id) c
  | first (id : Int) (t : Task) : c = 1 → DLocal atomic size c (.got id t) (.sleeping id t 10) c
  | firstNot (id : Int) (t : Task) : c ≠ 1 → DLocal atomic size c (.got id t) (.test2 id t) c
  | second (id : Int) (t : Task) : c = 2 → DLocal atomic size c (.test2 id t) (.sleeping id t 5) c
  | secondNot (id : Int) (t : Task) : c ≠ 2 → DLocal atomic size c (.test2 id t) (.test3 id t) c
  | third (id : Int) (t : Task) : c = 3 → DLocal atomic size c (.test3 id t) (.sleeping id t 7) c
  | thirdNot (id : Int) (t : Task) : c ≠ 3 → DLocal atomic size c (.test3 id t) (.sleeping id t 15) c
  | wake (id : Int) (t : Task) (secs : Nat) :
      DLocal atomic size c (.sleeping id t secs) (.finished id t secs) c

/-- What the step `a` from `s` to `s1` does to the handlers, the dispatchers and the counter. -/
inductive Move (atomic : Bool) (pf : Platform) (s : Sys) :
    Action → Sys → Prop where
  | quiet (a : Action) (s1 : Sys) : s1.handlers = s.handlers → s1.dispatchers = s.dispatchers →
      s1.dispatched = s.dispatched → Move atomic pf s a s1
  | arrive (body : List UInt8) (s1 : Sys) :
      s1.handlers = s.handlers ++ [{ body := body, pc := .decode, w := .fresh }] →
      s1.dispatchers = s.dispatchers → s1.dispatched = s.dispatched →
      Move atomic pf s (.arrive body) s1
  | hLocal (i : Nat) (h h1 : Handler) (s1 : Sys) : s.handlers[i]? = some h →
      HLocal pf h h1 →
      s1.handlers = s.handlers.set i h1 → s1.dispatchers = s.dispatchers →
      s1.dispatched = s.dispatched → Move atomic pf s (.hStep i) s1
  | spawn (i : Nat) (h : Handler) (task : Task) (s1 : Sys) : s.handlers[i]? = some h →
      h.pc = .spawn task →
      s1.handlers = s.handlers.set i { h with pc := .push task } →
      s1.dispatchers = s.dispatchers ++ [{ pc := .start, parent := i }] →
      s1.dispatched = s.dispatched → Move atomic pf s (.hStep i) s1
  | dLocal (j : Nat) (d : Dispatcher) (pc1 : DPc) (s1 : Sys) : s.dispatchers[j]? = some d →
      DLocal atomic pf.intSize s.dispatched d.pc pc1 s1.dispatched →
      s1.dispatchers = s.dispatchers.set j { d with pc := pc1 } →
      s1.handlers = s.handlers → Move atomic pf s (.dStep j) s1
  | handoff (i j : Nat) (h : Handler) (d : Dispatcher) (task : Task) (id : Int) (s1 : Sys) :
      s.handlers[i]? = some h → s.dispatchers[j]? = some d →
      h.pc = .push task → d.pc = .recv id →
      s1.handlers = s.handlers.set i { h with pc := .setHeader } →
      s1.dispatchers = s.dispatchers.set j { d with pc := .got id task } →
      s1.dispatched = s.dispatched → Move atomic pf s (.handoff i j) s1

/-! ## Predicates on program points -/

/-- The handler is at (or blocked in) the send on `taskChannel`. -/
def HPc.atPush : HPc → Bool
  | .push _ => true
  | _ => false

/-- The handler has executed its `go dispatcher(taskChannel)`. -/
def HPc.spawned : HPc → Bool
  | .decode => false
  | .spawn _ => false
  | _ => true

/-- The handler has completed its send on `taskChannel`. -/
def HPc.pushed : HPc → Bool
  | .decode => false
  | .spawn _ => false
  | .push _ => false
  | _ => true

/-- The handler has passed the decoding of its body. -/
def HPc.decoded : HPc → Bool
  | .decode => false
  | _ => true

/-- The dispatcher has received its task. -/
def DPc.received : DPc → Bool
  | .got _ _ => true
  | .test2 _ _ => true
  | .test3 _ _ => true
  | .sleeping _ _ _ => true
  | .finished _ _ _ => true
  | _ => false

/-- The dispatcher has completed `dispatched++`. -/
def DPc.incremented : DPc → Bool
  | .start => false
  | .loaded _ => false
  | _ => true

/-- The dispatcher has selected its delay. -/
def DPc.selected : DPc → Bool
  | .sleeping _ _ _ => true
  | .finished _ _ _ => true
  | _ => false

/-- Rank of the program points before the receive, used to show that a dispatcher reaches
its receive. -/
def DPc.rank : DPc → Nat
  | .start => 0
  | .loaded _ => 1
  | .stored => 2
  | .captured _ => 3
  | _ => 4

/-- The reply of a successful `handle`: status 200, the JSON content type, no body. -/
def okReply : ResponseWriter :=
  { header := [("Content-Type", "application/json")], status := some 200, body := [] }

/-- What a handler has written to its writer at each program point. -/
def ReplyGood (h : Handler) : Prop :=
  match h.pc with
  | .writeHeader => h.w = ResponseWriter.fresh.headerSet "Content-Type" "application/json"
  | .marshal => h.w = okReply
  | .done => h.w = okReply
  | _ => h.w = ResponseWriter.fresh

/-- Bookkeeping between handlers and dispatchers in every reachable state. -/
structure Balanced (s : Sys) : Prop where
  spawned : s.dispatchers.length = s.handlers.countP (fun h => h.pc.spawned)
  received :
    s.dispatchers.countP (fun d => d.pc.received) = s.handlers.countP (fun h => h.pc.pushed)
  pending :
    s.handlers.countP (fun h => h.pc.atPush) = s.dispatchers.countP (fun d => !d.pc.received)
  parentBound : ∀ d ∈ s.dispatchers, d.parent < s.handlers.length
  lineage : ∀ i h, s.handlers[i]? = some h →
    s.dispatchers.countP (fun d => decide (d.parent = i)) = if h.pc.spawned then 1 else 0

/-! ## Sequential handling -/

/-- The action would start a dispatcher (`go dispatcher(taskChannel)`) while an earlier
dispatcher has not yet selected its delay. -/
def overlaps (s : Sys) : Action → Bool
  | .hStep i =>
    match s.handlers[i]? with
    | some h =>
      match h.pc with
      | .spawn _ => !(s.dispatchers.all (fun d => d.pc.selected))
      | _ => false
    | none => false
  | _ => false

/-- Run a schedule in which submissions are handled one after another: no dispatcher is
started before all earlier ones have selected their delay. -/
def runSeq (atomic : Bool) (pf : Platform) :
    Sys → List Action → Option Sys
  | s, [] => some s
  | s, a :: as =>
    if overlaps s a then none
    else (step atomic pf s a).bind (fun s1 => runSeq atomic pf s1 as)

/-- What a dispatcher may be doing when submissions are handled one after another: `before`
is the value of the counter before its increment and `ordinal` the value after it. -/
def SeqGood (before ordinal : Int) : DPc → Prop
  | .start => True
  | .loaded v => v = before
  | .stored => True
  | .captured id => id = ordinal
  | .recv id => id = ordinal
  | .got id _ => id = ordinal
  | .test2 id _ => id = ordinal ∧ ordinal ≠ 1
  | .test3 id _ => id = ordinal ∧ ordinal ≠ 1 ∧ ordinal ≠ 2
  | .sleeping id _ secs => id = ordinal ∧ secs = delayFor ordinal
  | .finished id _ secs => id = ordinal ∧ secs = delayFor ordinal

/-- Invariant of sequential handling: the dispatcher at position `k` (the one started as
number `k + 1`) finds the counter at `k` and leaves it at `k + 1`, both wrapped to `int`. -/
structure Sequential (size : IntSize) (s : Sys) : Prop where
  good : ∀ (k : Nat) (d : Dispatcher), s.dispatchers[k]? = some d →
    SeqGood (wrapInt size (k : Int)) (wrapInt size ((k : Int) + 1)) d.pc
  earlier : ∀ (k : Nat) (d : Dispatcher), s.dispatchers[k]? = some d →
    k + 1 < s.dispatchers.length →
    d.pc.selected = true
  counter : ∀ (k : Nat) (d : Dispatcher), s.dispatchers[k]? = some d →
    k + 1 = s.dispatchers.length →
    s.dispatched =
      if d.pc.incremented then wrapInt size ((k : Int) + 1) else wrapInt size (k : Int)
  counterZero : s.dispatchers = [] → s.dispatched = 0

/-- Schedule that takes one submission from its arrival to the completed handoff: `n` and `m`
are the numbers of handlers and dispatchers that exist before. -/
def intake (atomic : Bool) (n m : Nat) (body : List UInt8) : List Action :=
  [.arrive body, .hStep n, .hStep n] ++ List.replicate (if atomic then 3 else 4) (.dStep m)
    ++ [.handoff n m]

/-- Schedule in which handler `n` writes its reply and returns. -/
def respond (n : Nat) : List Action := [.hStep n, .hStep n, .hStep n]

/-- Schedule that serves the submission number `k` (counted from 0) alone: intake, delay
selection by the dispatcher (one step per condition of the chain it evaluates), reply. -/
def serveOne (atomic : Bool) (size : IntSize) (k : Nat) (body : List UInt8) : List Action :=
  intake atomic k k body
    ++ List.replicate (tests (wrapInt size ((k : Int) + 1))) (.dStep k) ++ respond k

/-- Schedule that serves the given bodies one after another, starting with number `k`. -/
def serveAll (atomic : Bool) (size : IntSize) : Nat → List (List UInt8) → List Action
  | _, [] => []
  | k, b :: bs => serveOne atomic size k b ++ serveAll atomic size (k + 1) bs

/-- The program points of dispatchers number `k + 1`, `k + 2`, ... after they have selected
their delay for the given tasks, when submissions are handled one after another. -/
def sleepers (size : IntSize) : Nat → List Task → List DPc
  | _, [] => []
  | k, t :: ts =>
    .sleeping (wrapInt size ((k : Int) + 1)) t (delayFor (wrapInt size ((k : Int) + 1)))
      :: sleepers size (k + 1) ts

/-! ## Example schedules -/

/-- Two requests; the second dispatcher increments the counter before the first one has
received its task. -/
def racySchedule : List Action :=
  [.listen, .arrive (sampleBody "A"), .hStep 0, .hStep 0, .dStep 0, .dStep 0, .dStep 0,
   .arrive (sampleBody "B"), .hStep 1, .hStep 1, .dStep 1,
   .handoff 0 0, .dStep 0, .dStep 0]

/-- One request served alone up to the delay selection. -/
def soloSchedule : List Action :=
  [.listen, .arrive (sampleBody "A"), .hStep 0, .hStep 0, .dStep 0, .dStep 0, .dStep 0,
   .handoff 0 0, .dStep 0]

/-- Two concurrent requests whose tasks are received crosswise: both handlers start their
dispatcher, both dispatchers reach their receive, then the send of the second handler meets
the receive of the first dispatcher and the send of the first handler meets the receive of the
second dispatcher. -/
def crossSchedule (atomic : Bool) (bodyA bodyB : List UInt8) : List Action :=
  [.listen, .arrive bodyA, .arrive bodyB, .hStep 0, .hStep 0, .hStep 1, .hStep 1]
    ++ List.replicate (if atomic then 3 else 4) (.dStep 0)
    ++ List.replicate (if atomic then 3 else 4) (.dStep 1)
    ++ [.handoff 1 0, .handoff 0 1]

/-- Three dispatchers with interleaved reads and writes of `dispatched`: dispatcher 0 reads 0,
dispatchers 1 and 2 raise the counter to 2, then dispatcher 0 is about to write. -/
def lostUpdateSchedule : List Action :=
  [.listen, .arrive (sampleBody "A"), .arrive (sampleBody "B"), .arrive (sampleBody "C"),
   .hStep 0, .hStep 0, .hStep 1, .hStep 1, .hStep 2, .hStep 2,
   .dStep 0, .dStep 1, .dStep 1, .dStep 2, .dStep 2]

/-- A listener that cannot bind, then the `select` of `main`. -/
def bindFailureSchedule : List Action :=
  [.listen, .listenFail "listen tcp :9000: bind: address already in use", .selectErr]

/-- One request decoded, its `go` statement not yet executed. -/
def decodedSchedule : List Action := [.listen, .arrive (sampleBody "A"), .hStep 0]

/-- A running process with one dispatcher sleeping, one blocked in its receive, and a signal
in the buffer of `interruptChannel`. -/
def busyState : Sys :=
  { dispatched := 2,
    handlers :=
      [{ body := sampleBody "A", pc := .done, w := okReply },
       { body := sampleBody "B", pc := .push (sampleTask "B"), w := .fresh }],
    dispatchers :=
      [{ pc := .sleeping 1 (sampleTask "A") 10, parent := 0 },
       { pc := .recv 2, parent := 1 }],
    listener := .serving, interrupt := some .sigterm, term := none, out := [] }

/-- The state after a malformed request has arrived. -/
def malformedArrived : Sys :=
  (run true samplePlatform init [.listen, .arrive []]).getD init

/-- The state after a request has arrived whose handler is blocked in its send while its
dispatcher has not yet run. -/
def pushPending : Sys :=
  (run true samplePlatform init [.listen, .arrive (sampleBody "A"), .hStep 0, .hStep 0]).getD init

/-- Per-handler invariant: the writer holds what the program point says, and a handler that
has passed the decoding has a body that decodes. -/
def HandlerGood (pf : Platform) (h : Handler) : Prop :=
  ReplyGood h ∧ (h.pc.decoded = true → ∃ task, pf.unmarshal h.body = .ok task)

/-- Result of a step or run that leaves the process running: the handlers, the dispatchers and
the counter of `s1` are the given ones, and the lifecycle part of the state is that of `s`. -/
structure Next (s s1 : Sys) (hs : List Handler) (ds : List Dispatcher) (c : Int) : Prop where
  handlers : s1.handlers = hs
  dispatchers : s1.dispatchers = ds
  dispatched : s1.dispatched = c
  term : s1.term = none
  listener : s1.listener = s.listener
  interrupt : s1.interrupt = s.interrupt

/-- Either kind of run: `runSeq` when `gated`, `run` otherwise. -/
def runMode (gated atomic : Bool) (pf : Platform) (s : Sys)
    (sched : List Action) : Option Sys :=
  if gated then runSeq atomic pf s sched else run atomic pf s sched

/-- The schedule runs from `s` and ends, still running, with the given handlers, dispatchers
and counter. -/
def Exec (gated atomic : Bool) (pf : Platform) (s : Sys)
    (sched : List Action) (hs : List Handler) (ds : List Dispatcher) (c : Int) : Prop :=
  ∃ s1, runMode gated atomic pf s sched = some s1 ∧ Next s s1 hs ds c

/-- Invariant of the runs in which `dispatched++` is one step: the counter is the number of
dispatchers that have executed it, wrapped to `int`, and no dispatcher is between its read and
its write. -/
structure Counted (size : IntSize) (s : Sys) : Prop where
  counter :
    s.dispatched = wrapInt size (s.dispatchers.countP (fun d => d.pc.incremented) : Int)
  noLoaded : ∀ d ∈ s.dispatchers, ∀ v, d.pc ≠ .loaded v

/-- The process after `consume` has started to serve: `init` after the action `listen`. -/
def listening : Sys :=
  { init with listener := .serving, out := init.out ++ ["listening for requests"] }

/-- The state in which `ListenAndServe` has failed and `consume` is blocked in its send. -/
def listenerFailed : Sys :=
  (run true samplePlatform init
    [.listen, .listenFail "listen tcp :9000: bind: address already in use"]).getD init

/-- The state reached from `pushPending` when the dispatcher executes `dispatched++`. -/
def pushPendingNext : Sys :=
  (step true samplePlatform pushPending (.dStep 0)).getD init

/-- The state after the first request, with the body `sampleBody "A"`, has arrived. -/
def arrivedA : Sys :=
  (run true samplePlatform init [.listen, .arrive (sampleBody "A")]).getD init

/-! ## Basic facts about steps and runs -/

theorem wrapInt_succ (size : IntSize) (x : Int) :
    wrapInt size (wrapInt size x + 1) = wrapInt size (x + 1) := by
  cases size <;> simp only [wrapInt, IntSize.half] <;> push_cast <;> omega

theorem wrapInt_of_lt (size : IntSize) (x : Int) (h0 : 0 ≤ x) (h : x < (size.half : Int)) :
    wrapInt size x = x := by
  cases size <;> simp only [wrapInt, IntSize.half] at h ⊢ <;> push_cast at h ⊢ <;> omega

theorem wrapInt_zero (size : IntSize) : wrapInt size 0 = 0 := by
  cases size <;> rfl

theorem wrapInt_one (size : IntSize) : wrapInt size 1 = 1 := by
  cases size <;> rfl

theorem wrapInt_two (size : IntSize) : wrapInt size 2 = 2 := by
  cases size <;> rfl

theorem handlerStep_move (atomic : Bool) (pf : Platform) (s s1 : Sys)
    (i : Nat) (h : Handler) (hget : s.handlers[i]? = some h)
    (hstep : handlerStep pf s i h = some s1) : Move atomic pf s (.hStep i) s1 := by
  unfold handlerStep at hstep
  split at hstep
  · rename_i hpc
    split at hstep
    · simp [logFatal] at hstep; subst hstep
      exact .quiet _ _ rfl rfl rfl
    · rename_i task hum
      simp at hstep; subst hstep
      exact .hLocal i h _ _ hget (.decoded task hpc hum) rfl rfl rfl
  · rename_i task hpc
    simp at hstep; subst hstep
    exact .spawn i h task _ hget hpc rfl rfl rfl
  · simp at hstep
  · rename_i hpc
    simp at hstep; subst hstep
    exact .hLocal i h _ _ hget (.setHeader hpc) rfl rfl rfl
  · rename_i hpc
    simp at hstep; subst hstep
    exact .hLocal i h _ _ hget (.writeHeader hpc) rfl rfl rfl
  · rename_i hpc
    split at hstep
    · simp [logFatal] at hstep; subst hstep
      exact .quiet _ _ rfl rfl rfl
    · simp at hstep; subst hstep
      exact .hLocal i h _ _ hget (.marshalled hpc) rfl rfl rfl
  · simp at hstep

theorem dispatcherStep_move (atomic : Bool) (pf : Platform) (s s1 : Sys)
    (j : Nat) (d : Dispatcher) (hget : s.dispatchers[j]? = some d)
    (hstep : dispatcherStep atomic pf.intSize s j d = some s1) : Move atomic pf s (.dStep j) s1 := by
  unfold dispatcherStep at hstep
  split at hstep
  · rename_i hpc
    split at hstep
    · rename_i hat
      simp at hstep; subst hstep
      exact .dLocal j d _ _ hget (by rw [hpc]; exact .incr hat) rfl rfl
    · rename_i hat
      simp at hstep; subst hstep
      exact .dLocal j d _ _ hget (by rw [hpc]; exact .load (by simpa using hat)) rfl rfl
  · rename_i v hpc
    simp at hstep; subst hstep
    exact .dLocal j d _ _ hget (by rw [hpc]; exact .store v) rfl rfl
  · rename_i hpc
    simp at hstep; subst hstep
    exact .dLocal j d _ _ hget (by rw [hpc]; exact .capture) rfl rfl
  · rename_i id hpc
    simp at hstep; subst hstep
    exact .dLocal j d _ _ hget (by rw [hpc]; exact .print id) rfl rfl
  · simp at hstep
  · rename_i id t hpc
    split at hstep
    · rename_i hc
      simp at hstep; subst hstep
      exact .dLocal j d _ _ hget (by rw [hpc]; exact .first id t hc) rfl rfl
    · rename_i hc
      simp at hstep; subst hstep
      exact .dLocal j d _ _ hget (by rw [hpc]; exact .firstNot id t hc) rfl rfl
  · rename_i id t hpc
    split at hstep
    · rename_i hc
      simp at hstep; subst hstep
      exact .dLocal j d _ _ hget (by rw [hpc]; exact .second id t hc) rfl rfl
    · rename_i hc
      simp at hstep; subst hstep
      exact .dLocal j d _ _ hget (by rw [hpc]; exact .secondNot id t hc) rfl rfl
  · rename_i id t hpc
    split at hstep
    · rename_i hc
      simp at hstep; subst hstep
      exact .dLocal j d _ _ hget (by rw [hpc]; exact .third id t hc) rfl rfl
    · rename_i hc
      simp at hstep; subst hstep
      exact .dLocal j d _ _ hget (by rw [hpc]; exact .thirdNot id t hc) rfl rfl
  · rename_i id t secs hpc
    simp at hstep; subst hstep
    exact .dLocal j d _ _ hget (by rw [hpc]; exact .wake id t secs) rfl rfl
  · simp at hstep

/-- Every enabled step is one of the moves. -/
theorem step_move (atomic : Bool) (pf : Platform) (s s1 : Sys)
    (a : Action) (hstep : step atomic pf s a = some s1) : Move atomic pf s a s1 := by
  unfold step at hstep
  split at hstep
  · simp at hstep
  · cases a with
    | listen =>
      simp only at hstep
      split at hstep
      · simp at hstep; subst hstep; exact .quiet _ _ rfl rfl rfl
      · simp at hstep
    | listenFail err =>
      simp only at hstep
      split at hstep
      · simp at hstep; subst hstep; exact .quiet _ _ rfl rfl rfl
      · simp at hstep
    | signal sig =>
      simp only at hstep
      split at hstep
      · simp at hstep; subst hstep; exact .quiet _ _ rfl rfl rfl
      · simp at hstep; subst hstep; exact .quiet _ _ rfl rfl rfl
    | selectErr =>
      simp only at hstep
      split at hstep
      · simp at hstep; subst hstep; exact .quiet _ _ rfl rfl rfl
      · simp at hstep
    | selectSig =>
      simp only at hstep
      split at hstep
      · simp at hstep; subst hstep; exact .quiet _ _ rfl rfl rfl
      · simp at hstep
    | arrive body =>
      simp only at hstep
      split at hstep
      · simp at hstep
      · simp at hstep; subst hstep; exact .arrive body _ rfl rfl rfl
    | hStep i =>
      simp only at hstep
      split at hstep
      · rename_i h hget
        exact handlerStep_move atomic pf s s1 i h hget hstep
      · simp at hstep
    | dStep j =>
      simp only at hstep
      split at hstep
      · rename_i d hget
        exact dispatcherStep_move atomic pf s s1 j d hget hstep
      · simp at hstep
    | handoff i j =>
      simp only at hstep
      split at hstep
      · rename_i h d hh hd
        split at hstep
        · rename_i task id hpc dpc
          simp at hstep; subst hstep
          exact .handoff i j h d task id _ hh hd hpc dpc rfl rfl rfl
        · simp at hstep
      · simp at hstep

/-- Nothing is enabled once the process has terminated. -/
theorem step_terminated (atomic : Bool) (pf : Platform) (s : Sys)
    (t : Termination) (a : Action) (h : s.term = some t) : step atomic pf s a = none := by
  unfold step
  rw [h]

theorem run_append (atomic : Bool) (pf : Platform) (s : Sys)
    (xs ys : List Action) :
    run atomic pf s (xs ++ ys) = (run atomic pf s xs).bind (fun s1 => run atomic pf s1 ys) := by
  induction xs generalizing s with
  | nil => simp [run]
  | cons a xs ih =>
    simp only [List.cons_append, run]
    cases step atomic pf s a with
    | none => simp
    | some s1 => simpa using ih s1

/-- Invariants: a property of `init` that every step preserves holds in every reachable
state. -/
theorem reachable_induction (atomic : Bool) (pf : Platform)
    (P : Sys → Prop) (h0 : P init)
    (hstep : ∀ s a s1, P s → step atomic pf s a = some s1 → P s1)
    (s : Sys) (hs : Reachable atomic pf s) : P s := by
  obtain ⟨sched, hrun⟩ := hs
  have key : ∀ (xs : List Action) (s0 : Sys), P s0 → run atomic pf s0 xs = some s → P s := by
    intro xs
    induction xs with
    | nil =>
      intro s0 h hr
      simp [run] at hr
      exact hr ▸ h
    | cons a xs ih =>
      intro s0 h hr
      simp only [run] at hr
      cases hst : step atomic pf s0 a with
      | none => simp [hst] at hr
      | some s1 =>
        rw [hst] at hr
        exact ih s1 (hstep s0 a s1 h hst) (by simpa using hr)
  exact key sched init h0 hrun

theorem reachable_run (atomic : Bool) (pf : Platform) (s s1 : Sys)
    (xs : List Action) (hs : Reachable atomic pf s) (hr : run atomic pf s xs = some s1) :
    Reachable atomic pf s1 := by
  obtain ⟨sched, hrun⟩ := hs
  exact ⟨sched ++ xs, by rw [run_append, hrun]; simpa using hr⟩

theorem countP_set_add {α : Type} (p : α → Bool) (l : List α) (i : Nat) (x y : α)
    (h : l[i]? = some y) :
    (l.set i x).countP p + (if p y then 1 else 0) = l.countP p + (if p x then 1 else 0) := by
  induction l generalizing i with
  | nil => simp at h
  | cons a l ih =>
    cases i with
    | zero =>
      simp at h
      subst h
      simp [List.countP_cons]
      omega
    | succ i =>
      simp at h
      have := ih i h
      simp [List.countP_cons]
      omega

theorem hLocal_good (pf : Platform) (h h1 : Handler)
    (hl : HLocal pf h h1) (hg : HandlerGood pf h) : HandlerGood pf h1 := by
  obtain ⟨hr, hd⟩ := hg
  cases hl with
  | decoded task hpc hum =>
    simp only [ReplyGood, hpc] at hr
    exact ⟨by simp [ReplyGood, hr], fun _ => ⟨task, hum⟩⟩
  | setHeader hpc =>
    simp only [ReplyGood, hpc] at hr
    exact ⟨by simp [ReplyGood, hr], fun _ => hd (by simp [hpc, HPc.decoded])⟩
  | writeHeader hpc =>
    simp only [ReplyGood, hpc] at hr
    refine ⟨?_, fun _ => hd (by simp [hpc, HPc.decoded])⟩
    simp only [ReplyGood, hr]
    rfl
  | marshalled hpc =>
    simp only [ReplyGood, hpc] at hr
    exact ⟨by simp [ReplyGood, hr], fun _ => hd (by simp [hpc, HPc.decoded])⟩

theorem step_handlersGood (atomic : Bool) (pf : Platform) (s s1 : Sys)
    (a : Action) (hs : ∀ h ∈ s.handlers, HandlerGood pf h)
    (hstep : step atomic pf s a = some s1) : ∀ h ∈ s1.handlers, HandlerGood pf h := by
  have hm := step_move atomic pf s s1 a hstep
  cases hm with
  | quiet _ _ e1 e2 e3 => rw [e1]; exact hs
  | arrive body _ e1 e2 e3 =>
    rw [e1]
    intro h hmem
    rcases List.mem_append.mp hmem with hmem | hmem
    · exact hs h hmem
    · simp at hmem
      subst hmem
      exact ⟨by simp [ReplyGood], by simp [HPc.decoded]⟩
  | hLocal i h h1 _ hget hl e1 e2 e3 =>
    rw [e1]
    intro x hmem
    rcases List.mem_or_eq_of_mem_set hmem with hmem | hmem
    · exact hs x hmem
    · subst hmem
      exact hLocal_good pf h _ hl (hs h (List.getElem?_mem hget))
  | spawn i h task _ hget hpc e1 e2 e3 =>
    rw [e1]
    intro x hmem
    rcases List.mem_or_eq_of_mem_set hmem with hmem | hmem
    · exact hs x hmem
    · subst hmem
      obtain ⟨hr, hd⟩ := hs h (List.getElem?_mem hget)
      simp only [ReplyGood, hpc] at hr
      exact ⟨by simp [ReplyGood, hr], fun _ => hd (by simp [hpc, HPc.decoded])⟩
  | dLocal j d pc1 _ hget hl e1 e2 => rw [e2]; exact hs
  | handoff i j h d task id _ hh hd hpc dpc e1 e2 e3 =>
    rw [e1]
    intro x hmem
    rcases List.mem_or_eq_of_mem_set hmem with hmem | hmem
    · exact hs x hmem
    · subst hmem
      obtain ⟨hr, hdec⟩ := hs h (List.getElem?_mem hh)
      simp only [ReplyGood, hpc] at hr
      exact ⟨by simp [ReplyGood, hr], fun _ => hdec (by simp [hpc, HPc.decoded])⟩

theorem reachable_handlersGood (atomic : Bool) (pf : Platform) (s : Sys)
    (hs : Reachable atomic pf s) : ∀ h ∈ s.handlers, HandlerGood pf h :=
  reachable_induction atomic pf (fun s => ∀ h ∈ s.handlers, HandlerGood pf h)
    (by simp [init]) (fun s a s1 => step_handlersGood atomic pf s s1 a) s hs

/-! ## Enabledness: every move can be taken by the step function -/

theorem arrive_enabled (atomic : Bool) (pf : Platform) (s : Sys)
    (body : List UInt8) (hterm : s.term = none) (hl : s.listener ≠ .notStarted) :
    ∃ s1, step atomic pf s (.arrive body) = some s1 ∧
      Next s s1 (s.handlers ++ [{ body := body, pc := .decode, w := .fresh }])
        s.dispatchers s.dispatched := by
  unfold step
  rw [hterm]
  cases hls : s.listener with
  | notStarted => exact absurd hls hl
  | serving => exact ⟨_, rfl, ⟨rfl, rfl, rfl, rfl, by first | rfl | exact hls.symm, rfl⟩⟩
  | failed err => exact ⟨_, rfl, ⟨rfl, rfl, rfl, rfl, by first | rfl | exact hls.symm, rfl⟩⟩

theorem hLocal_enabled (atomic : Bool) (pf : Platform) (s : Sys)
    (i : Nat) (h h1 : Handler) (hterm : s.term = none) (hget : s.handlers[i]? = some h)
    (hl : HLocal pf h h1) :
    ∃ s1, step atomic pf s (.hStep i) = some s1 ∧
      Next s s1 (s.handlers.set i h1) s.dispatchers s.dispatched := by
  unfold step
  rw [hterm]
  simp only [hget]
  unfold handlerStep
  cases hl with
  | decoded task hpc hum =>
    simp only [hpc, hum]
    exact ⟨_, rfl, ⟨rfl, rfl, rfl, by first | rfl | exact hterm, rfl, rfl⟩⟩
  | setHeader hpc =>
    simp only [hpc]
    exact ⟨_, rfl, ⟨rfl, rfl, rfl, by first | rfl | exact hterm, rfl, rfl⟩⟩
  | writeHeader hpc =>
    simp only [hpc]
    exact ⟨_, rfl, ⟨rfl, rfl, rfl, by first | rfl | exact hterm, rfl, rfl⟩⟩
  | marshalled hpc =>
    simp only [hpc, marshalResponse]
    exact ⟨_, rfl, ⟨rfl, rfl, rfl, by first | rfl | exact hterm, rfl, rfl⟩⟩

theorem spawn_enabled (atomic : Bool) (pf : Platform) (s : Sys)
    (i : Nat) (h : Handler) (task : Task) (hterm : s.term = none)
    (hget : s.handlers[i]? = some h) (hpc : h.pc = .spawn task) :
    ∃ s1, step atomic pf s (.hStep i) = some s1 ∧
      Next s s1 (s.handlers.set i { h with pc := .push task })
        (s.dispatchers ++ [{ pc := .start, parent := i }]) s.dispatched := by
  unfold step
  rw [hterm]
  simp only [hget]
  unfold handlerStep
  simp only [hpc]
  exact ⟨_, rfl, ⟨rfl, rfl, rfl, by first | rfl | exact hterm, rfl, rfl⟩⟩

theorem dLocal_enabled (atomic : Bool) (pf : Platform) (s : Sys)
    (j : Nat) (d : Dispatcher) (pc1 : DPc) (c1 : Int) (hterm : s.term = none)
    (hget : s.dispatchers[j]? = some d) (hl : DLocal atomic pf.intSize s.dispatched d.pc pc1 c1) :
    ∃ s1, step atomic pf s (.dStep j) = some s1 ∧
      Next s s1 s.handlers (s.dispatchers.set j { d with pc := pc1 }) c1 := by
  unfold step
  rw [hterm]
  simp only [hget]
  unfold dispatcherStep
  generalize hpc : d.pc = pc0 at hl
  cases hl with
  | incr hat =>
    simp only [hat, if_true]
    exact ⟨_, rfl, ⟨rfl, rfl, rfl, by first | rfl | exact hterm, rfl, rfl⟩⟩
  | load hat =>
    simp only [hat]
    exact ⟨_, rfl, ⟨rfl, rfl, rfl, by first | rfl | exact hterm, rfl, rfl⟩⟩
  | store v => exact ⟨_, rfl, ⟨rfl, rfl, rfl, by first | rfl | exact hterm, rfl, rfl⟩⟩
  | capture => exact ⟨_, rfl, ⟨rfl, rfl, rfl, by first | rfl | exact hterm, rfl, rfl⟩⟩
  | print id => exact ⟨_, rfl, ⟨rfl, rfl, rfl, by first | rfl | exact hterm, rfl, rfl⟩⟩
  | first id t hc =>
    simp only [hc, if_true]
    exact ⟨_, rfl, ⟨rfl, rfl, rfl, by first | rfl | exact hterm, rfl, rfl⟩⟩
  | firstNot id t hc =>
    simp only [hc, if_false]
    exact ⟨_, rfl, ⟨rfl, rfl, rfl, by first | rfl | exact hterm, rfl, rfl⟩⟩
  | second id t hc =>
    simp only [hc, if_true]
    exact ⟨_, rfl, ⟨rfl, rfl, rfl, by first | rfl | exact hterm, rfl, rfl⟩⟩
  | secondNot id t hc =>
    simp only [hc, if_false]
    exact ⟨_, rfl, ⟨rfl, rfl, rfl, by first | rfl | exact hterm, rfl, rfl⟩⟩
  | third id t hc =>
    simp only [hc, if_true]
    exact ⟨_, rfl, ⟨rfl, rfl, rfl, by first | rfl | exact hterm, rfl, rfl⟩⟩
  | thirdNot id t hc =>
    simp only [hc, if_false]
    exact ⟨_, rfl, ⟨rfl, rfl, rfl, by first | rfl | exact hterm, rfl, rfl⟩⟩
  | wake id t secs => exact ⟨_, rfl, ⟨rfl, rfl, rfl, by first | rfl | exact hterm, rfl, rfl⟩⟩

theorem handoff_enabled (atomic : Bool) (pf : Platform) (s : Sys)
    (i j : Nat) (h : Handler) (d : Dispatcher) (task : Task) (id : Int) (hterm : s.term = none)
    (hh : s.handlers[i]? = some h) (hd : s.dispatchers[j]? = some d)
    (hpc : h.pc = .push task) (dpc : d.pc = .recv id) :
    ∃ s1, step atomic pf s (.handoff i j) = some s1 ∧
      Next s s1 (s.handlers.set i { h with pc := .setHeader })
        (s.dispatchers.set j { d with pc := .got id task }) s.dispatched := by
  unfold step
  rw [hterm]
  simp only [hh, hd, hpc, dpc]
  exact ⟨_, rfl, ⟨rfl, rfl, rfl, rfl, rfl, rfl⟩⟩

/-! ## Composing runs -/

theorem runMode_nil (gated atomic : Bool) (pf : Platform) (s : Sys) :
    runMode gated atomic pf s [] = some s := by
  cases gated <;> simp [runMode, run, runSeq]

theorem runMode_cons (gated atomic : Bool) (pf : Platform) (s s1 : Sys)
    (a : Action) (rest : List Action) (hov : gated = true → overlaps s a = false)
    (hstep : step atomic pf s a = some s1) :
    runMode gated atomic pf s (a :: rest) = runMode gated atomic pf s1 rest := by
  cases gated
  · simp [runMode, run, hstep]
  · simp [runMode, runSeq, hstep, hov rfl]

theorem runSeq_run (atomic : Bool) (pf : Platform) (xs : List Action)
    (s s1 : Sys) (h : runSeq atomic pf s xs = some s1) : run atomic pf s xs = some s1 := by
  induction xs generalizing s with
  | nil => simpa [run, runSeq] using h
  | cons a xs ih =>
    simp only [runSeq] at h
    split at h
    · simp at h
    · simp only [run]
      cases hst : step atomic pf s a with
      | none => simp [hst] at h
      | some s2 =>
        rw [hst] at h
        simpa using ih s2 (by simpa using h)

theorem exec_cons (gated atomic : Bool) (pf : Platform) (s : Sys)
    (a : Action) (rest : List Action) (hs1 hs : List Handler) (ds1 ds : List Dispatcher)
    (c1 c : Int) (hov : gated = true → overlaps s a = false)
    (hstep : ∃ s1, step atomic pf s a = some s1 ∧ Next s s1 hs1 ds1 c1)
    (hrest : ∀ s1, Next s s1 hs1 ds1 c1 → Exec gated atomic pf s1 rest hs ds c) :
    Exec gated atomic pf s (a :: rest) hs ds c := by
  obtain ⟨s1, hst, n1⟩ := hstep
  obtain ⟨s2, hrun, n2⟩ := hrest s1 n1
  refine ⟨s2, ?_, ⟨n2.handlers, n2.dispatchers, n2.dispatched, n2.term, ?_, ?_⟩⟩
  · rw [runMode_cons gated atomic pf s s1 a rest hov hst]
    exact hrun
  · rw [n2.listener, n1.listener]
  · rw [n2.interrupt, n1.interrupt]

theorem runMode_append (gated atomic : Bool) (pf : Platform)
    (xs ys : List Action) (s s1 : Sys) (h : runMode gated atomic pf s xs = some s1) :
    runMode gated atomic pf s (xs ++ ys) = runMode gated atomic pf s1 ys := by
  induction xs generalizing s with
  | nil =>
    rw [runMode_nil] at h
    simp at h
    subst h
    rfl
  | cons a xs ih =>
    have hgo : gated = true → overlaps s a = false := by
      intro hg
      subst hg
      cases hov : overlaps s a with
      | false => rfl
      | true => simp [runMode, runSeq, hov] at h
    cases hst : step atomic pf s a with
    | none =>
      cases gated <;> simp [runMode, run, runSeq, hst] at h
    | some s2 =>
      rw [List.cons_append, runMode_cons gated atomic pf s s2 a _ hgo hst]
      rw [runMode_cons gated atomic pf s s2 a _ hgo hst] at h
      exact ih s2 h

theorem exec_append (gated atomic : Bool) (pf : Platform) (s : Sys)
    (xs ys : List Action) (hs1 hs : List Handler) (ds1 ds : List Dispatcher) (c1 c : Int)
    (hfst : Exec gated atomic pf s xs hs1 ds1 c1)
    (hrest : ∀ s1, Next s s1 hs1 ds1 c1 → Exec gated atomic pf s1 ys hs ds c) :
    Exec gated atomic pf s (xs ++ ys) hs ds c := by
  obtain ⟨s1, hrun1, n1⟩ := hfst
  obtain ⟨s2, hrun2, n2⟩ := hrest s1 n1
  refine ⟨s2, ?_, ⟨n2.handlers, n2.dispatchers, n2.dispatched, n2.term, ?_, ?_⟩⟩
  · rw [runMode_append gated atomic pf xs ys s s1 hrun1]
    exact hrun2
  · rw [n2.listener, n1.listener]
  · rw [n2.interrupt, n1.interrupt]

theorem set_concat_length {α : Type} (l : List α) (a b : α) :
    (l ++ [a]).set l.length b = l ++ [b] := by
  rw [List.set_append_right _ _ (Nat.le_refl _)]
  simp

theorem overlaps_hStep_of (s : Sys) (i : Nat) (h : Handler) (hget : s.handlers[i]? = some h)
    (hpc : ∀ task, h.pc ≠ .spawn task) : overlaps s (.hStep i) = false := by
  simp only [overlaps, hget]

theorem overlaps_spawn_of (s : Sys) (i : Nat)
    (hall : ∀ d ∈ s.dispatchers, d.pc.selected = true) : overlaps s (.hStep i) = false := by
  have hb : s.dispatchers.all (fun d => d.pc.selected) = true := by simpa using hall
  simp only [overlaps, hb]
  cases s.handlers[i]? with
  | none => rfl
  | some h =>
    obtain ⟨body, pc, w⟩ := h
    cases pc <;> rfl

theorem exec_done (gated atomic : Bool) (pf : Platform) (s : Sys)
    (hs : List Handler) (ds : List Dispatcher) (c : Int) (hterm : s.term = none)
    (e1 : s.handlers = hs) (e2 : s.dispatchers = ds) (e3 : s.dispatched = c) :
    Exec gated atomic pf s [] hs ds c :=
  ⟨s, runMode_nil gated atomic pf s, ⟨e1, e2, e3, hterm, rfl, rfl⟩⟩

theorem hLocal_last (atomic : Bool) (pf : Platform) (s : Sys)
    (hs : List Handler) (h h1 : Handler) (hterm : s.term = none)
    (e : s.handlers = hs ++ [h]) (hl : HLocal pf h h1) :
    ∃ s1, step atomic pf s (.hStep hs.length) = some s1 ∧
      Next s s1 (hs ++ [h1]) s.dispatchers s.dispatched := by
  have := hLocal_enabled atomic pf s hs.length h h1 hterm
    (by rw [e]; exact List.getElem?_concat_length hs h) hl
  rwa [e, set_concat_length] at this

theorem spawn_last (atomic : Bool) (pf : Platform) (s : Sys)
    (hs : List Handler) (h : Handler) (task : Task) (hterm : s.term = none)
    (e : s.handlers = hs ++ [h]) (hpc : h.pc = .spawn task) :
    ∃ s1, step atomic pf s (.hStep hs.length) = some s1 ∧
      Next s s1 (hs ++ [{ h with pc := .push task }])
        (s.dispatchers ++ [{ pc := .start, parent := hs.length }]) s.dispatched := by
  have := spawn_enabled atomic pf s hs.length h task hterm
    (by rw [e]; exact List.getElem?_concat_length hs h) hpc
  rwa [e, set_concat_length] at this

theorem dLocal_last (atomic : Bool) (pf : Platform) (s : Sys)
    (ds : List Dispatcher) (d : Dispatcher) (pc1 : DPc) (c1 : Int) (hterm : s.term = none)
    (e : s.dispatchers = ds ++ [d]) (hl : DLocal atomic pf.intSize s.dispatched d.pc pc1 c1) :
    ∃ s1, step atomic pf s (.dStep ds.length) = some s1 ∧
      Next s s1 s.handlers (ds ++ [{ d with pc := pc1 }]) c1 := by
  have := dLocal_enabled atomic pf s ds.length d pc1 c1 hterm
    (by rw [e]; exact List.getElem?_concat_length ds d) hl
  rwa [e, set_concat_length] at this

theorem handoff_last (atomic : Bool) (pf : Platform) (s : Sys)
    (hs : List Handler) (ds : List Dispatcher) (h : Handler) (d : Dispatcher) (task : Task)
    (id : Int) (hterm : s.term = none) (eh : s.handlers = hs ++ [h])
    (ed : s.dispatchers = ds ++ [d]) (hpc : h.pc = .push task) (dpc : d.pc = .recv id) :
    ∃ s1, step atomic pf s (.handoff hs.length ds.length) = some s1 ∧
      Next s s1 (hs ++ [{ h with pc := .setHeader }]) (ds ++ [{ d with pc := .got id task }])
        s.dispatched := by
  have := handoff_enabled atomic pf s hs.length ds.length h d task id hterm
    (by rw [eh]; exact List.getElem?_concat_length hs h)
    (by rw [ed]; exact List.getElem?_concat_length ds d) hpc dpc
  rwa [eh, ed, set_concat_length, set_concat_length] at this

/-! ## Steps of a goroutine in the middle of the list -/

theorem getElem?_mid {α : Type} (pre post : List α) (x : α) :
    (pre ++ x :: post)[pre.length]? = some x := by
  rw [List.getElem?_append_right (Nat.le_refl _)]
  simp

theorem set_mid {α : Type} (pre post : List α) (x y : α) :
    (pre ++ x :: post).set pre.length y = pre ++ y :: post := by
  rw [List.set_append_right _ _ (Nat.le_refl _)]
  simp

theorem hLocal_mid (atomic : Bool) (pf : Platform) (s : Sys)
    (pre post : List Handler) (h h1 : Handler) (hterm : s.term = none)
    (e : s.handlers = pre ++ h :: post) (hl : HLocal pf h h1) :
    ∃ s1, step atomic pf s (.hStep pre.length) = some s1 ∧
      Next s s1 (pre ++ h1 :: post) s.dispatchers s.dispatched := by
  have := hLocal_enabled atomic pf s pre.length h h1 hterm
    (by rw [e]; exact getElem?_mid pre post h) hl
  rwa [e, set_mid] at this

theorem spawn_mid (atomic : Bool) (pf : Platform) (s : Sys)
    (pre post : List Handler) (h : Handler) (task : Task) (hterm : s.term = none)
    (e : s.handlers = pre ++ h :: post) (hpc : h.pc = .spawn task) :
    ∃ s1, step atomic pf s (.hStep pre.length) = some s1 ∧
      Next s s1 (pre ++ { h with pc := .push task } :: post)
        (s.dispatchers ++ [{ pc := .start, parent := pre.length }]) s.dispatched := by
  have := spawn_enabled atomic pf s pre.length h task hterm
    (by rw [e]; exact getElem?_mid pre post h) hpc
  rwa [e, set_mid] at this

theorem dLocal_mid (atomic : Bool) (pf : Platform) (s : Sys)
    (pre post : List Dispatcher) (d : Dispatcher) (pc1 : DPc) (c1 : Int)
    (hterm : s.term = none) (e : s.dispatchers = pre ++ d :: post)
    (hl : DLocal atomic pf.intSize s.dispatched d.pc pc1 c1) :
    ∃ s1, step atomic pf s (.dStep pre.length) = some s1 ∧
      Next s s1 s.handlers (pre ++ { d with pc := pc1 } :: post) c1 := by
  have := dLocal_enabled atomic pf s pre.length d pc1 c1 hterm
    (by rw [e]; exact getElem?_mid pre post d) hl
  rwa [e, set_mid] at this

theorem handoff_mid (atomic : Bool) (pf : Platform) (s : Sys)
    (hpre hpost : List Handler) (dpre dpost : List Dispatcher) (h : Handler) (d : Dispatcher)
    (task : Task) (id : Int) (hterm : s.term = none) (eh : s.handlers = hpre ++ h :: hpost)
    (ed : s.dispatchers = dpre ++ d :: dpost) (hpc : h.pc = .push task)
    (dpc : d.pc = .recv id) :
    ∃ s1, step atomic pf s (.handoff hpre.length dpre.length) = some s1 ∧
      Next s s1 (hpre ++ { h with pc := .setHeader } :: hpost)
        (dpre ++ { d with pc := .got id task } :: dpost) s.dispatched := by
  have := handoff_enabled atomic pf s hpre.length dpre.length h d task id hterm
    (by rw [eh]; exact getElem?_mid hpre hpost h)
    (by rw [ed]; exact getElem?_mid dpre dpost d) hpc dpc
  rwa [eh, ed, set_mid, set_mid] at this

/-- A dispatcher that has not yet run reaches its receive, wherever it is in the list. -/
theorem toRecv_mid (gated atomic : Bool) (pf : Platform) (s : Sys)
    (pre post : List Dispatcher) (p : Nat) (hterm : s.term = none)
    (e : s.dispatchers = pre ++ { pc := .start, parent := p } :: post) :
    Exec gated atomic pf s (List.replicate (if atomic then 3 else 4) (.dStep pre.length))
      s.handlers
      (pre ++ { pc := .recv (wrapInt pf.intSize (s.dispatched + 1)), parent := p } :: post)
      (wrapInt pf.intSize (s.dispatched + 1)) := by
  cases atomic
  · show Exec gated false pf s [.dStep pre.length, .dStep pre.length, .dStep pre.length,
      .dStep pre.length] _ _ _
    refine exec_cons gated false pf s _ _ _ _ _ _ _ _ (fun _ => rfl)
      (dLocal_mid false pf s pre post _ _ _ hterm e (.load rfl)) (fun s1 n1 => ?_)
    refine exec_cons gated false pf s1 _ _ _ _ _ _ _ _ (fun _ => rfl)
      (dLocal_mid false pf s1 pre post _ _ _ n1.term n1.dispatchers (.store _))
      (fun s2 n2 => ?_)
    refine exec_cons gated false pf s2 _ _ _ _ _ _ _ _ (fun _ => rfl)
      (dLocal_mid false pf s2 pre post _ _ _ n2.term n2.dispatchers .capture) (fun s3 n3 => ?_)
    refine exec_cons gated false pf s3 _ _ _ _ _ _ _ _ (fun _ => rfl)
      (dLocal_mid false pf s3 pre post _ _ _ n3.term n3.dispatchers (.print _))
      (fun s4 n4 => ?_)
    refine exec_done gated false pf s4 _ _ _ n4.term ?_ ?_ ?_
    · rw [n4.handlers, n3.handlers, n2.handlers, n1.handlers]
    · rw [n4.dispatchers, n2.dispatched]
    · rw [n4.dispatched, n3.dispatched, n2.dispatched]
  · show Exec gated true pf s [.dStep pre.length, .dStep pre.length, .dStep pre.length] _ _ _
    refine exec_cons gated true pf s _ _ _ _ _ _ _ _ (fun _ => rfl)
      (dLocal_mid true pf s pre post _ _ _ hterm e (.incr rfl)) (fun s2 n2 => ?_)
    refine exec_cons gated true pf s2 _ _ _ _ _ _ _ _ (fun _ => rfl)
      (dLocal_mid true pf s2 pre post _ _ _ n2.term n2.dispatchers .capture) (fun s3 n3 => ?_)
    refine exec_cons gated true pf s3 _ _ _ _ _ _ _ _ (fun _ => rfl)
      (dLocal_mid true pf s3 pre post _ _ _ n3.term n3.dispatchers (.print _))
      (fun s4 n4 => ?_)
    refine exec_done gated true pf s4 _ _ _ n4.term ?_ ?_ ?_
    · rw [n4.handlers, n3.handlers, n2.handlers]
    · rw [n4.dispatchers, n2.dispatched]
    · rw [n4.dispatched, n3.dispatched, n2.dispatched]

/-- A dispatcher that is the last one started and has not yet run reaches its receive. -/
theorem toRecv_exec (gated atomic : Bool) (pf : Platform) (s : Sys)
    (ds : List Dispatcher) (p : Nat) (hterm : s.term = none)
    (e : s.dispatchers = ds ++ [{ pc := .start, parent := p }]) :
    Exec gated atomic pf s (List.replicate (if atomic then 3 else 4) (.dStep ds.length))
      s.handlers (ds ++ [{ pc := .recv (wrapInt pf.intSize (s.dispatched + 1)), parent := p }])
      (wrapInt pf.intSize (s.dispatched + 1)) :=
  toRecv_mid gated atomic pf s ds [] p hterm e

theorem reply_eq :
    (ResponseWriter.fresh.headerSet "Content-Type" "application/json").writeHeader StatusOK
      = okReply := by
  decide

/-- From its arrival to the completed handoff, a submission with a decodable body runs
through, and the dispatcher it started is the one that receives its task. -/
theorem intake_exec (gated atomic : Bool) (pf : Platform) (s : Sys)
    (body : List UInt8) (task : Task) (hterm : s.term = none)
    (hl : s.listener ≠ .notStarted) (hum : pf.unmarshal body = .ok task)
    (hg : gated = true → ∀ d ∈ s.dispatchers, d.pc.selected = true) :
    Exec gated atomic pf s (intake atomic s.handlers.length s.dispatchers.length body)
      (s.handlers ++ [{ body := body, pc := .setHeader, w := .fresh }])
      (s.dispatchers ++ [{ pc := .got (wrapInt pf.intSize (s.dispatched + 1)) task,
                           parent := s.handlers.length }])
      (wrapInt pf.intSize (s.dispatched + 1)) := by
  unfold intake
  refine exec_append gated atomic pf s _ _
    (s.handlers ++ [{ body := body, pc := .push task, w := .fresh }]) _
    (s.dispatchers ++ [{ pc := .recv (wrapInt pf.intSize (s.dispatched + 1)),
                         parent := s.handlers.length }]) _
    (wrapInt pf.intSize (s.dispatched + 1)) _ ?_ ?_
  · show Exec gated atomic pf s (.arrive body :: .hStep s.handlers.length ::
      .hStep s.handlers.length :: List.replicate _ _) _ _ _
    refine exec_cons gated atomic pf s _ _ _ _ _ _ _ _ (fun _ => rfl)
      (arrive_enabled atomic pf s body hterm hl) (fun s1 n1 => ?_)
    refine exec_cons gated atomic pf s1 _ _ _ _ _ _ _ _
      (fun _ => overlaps_hStep_of s1 _ { body := body, pc := .decode, w := .fresh }
        (by rw [n1.handlers]; exact List.getElem?_concat_length _ _) (by intro t; simp))
      (hLocal_last atomic pf s1 s.handlers _ _ n1.term n1.handlers (.decoded task rfl hum))
      (fun s2 n2 => ?_)
    refine exec_cons gated atomic pf s2 _ _ _ _ _ _ _ _
      (fun hgt => overlaps_spawn_of s2 _
        (by rw [n2.dispatchers, n1.dispatchers]; exact hg hgt))
      (spawn_last atomic pf s2 s.handlers _ task n2.term n2.handlers rfl) (fun s3 n3 => ?_)
    have e3 : s3.dispatchers = s.dispatchers ++ [{ pc := .start, parent := s.handlers.length }] := by
      rw [n3.dispatchers, n2.dispatchers, n1.dispatchers]
    have key := toRecv_exec gated atomic pf s3 s.dispatchers s.handlers.length n3.term e3
    rw [n3.handlers, n3.dispatched, n2.dispatched, n1.dispatched] at key
    exact key
  · intro s4 n4
    refine exec_cons gated atomic pf s4 _ _ _ _ _ _ _ _ (fun _ => rfl)
      (handoff_last atomic pf s4 s.handlers s.dispatchers _ _ task _ n4.term n4.handlers
        n4.dispatchers rfl rfl) (fun s5 n5 => ?_)
    exact exec_done gated atomic pf s5 _ _ _ n5.term n5.handlers n5.dispatchers
      (n5.dispatched.trans n4.dispatched)

/-- After the handoff the handler writes its reply and returns. -/
theorem respond_exec (gated atomic : Bool) (pf : Platform) (s : Sys)
    (hs : List Handler) (body : List UInt8) (hterm : s.term = none)
    (e : s.handlers = hs ++ [{ body := body, pc := .setHeader, w := .fresh }]) :
    Exec gated atomic pf s (respond hs.length)
      (hs ++ [{ body := body, pc := .done, w := okReply }]) s.dispatchers s.dispatched := by
  unfold respond
  refine exec_cons gated atomic pf s _ _ _ _ _ _ _ _
    (fun _ => overlaps_hStep_of s _ { body := body, pc := .setHeader, w := .fresh }
      (by rw [e]; exact List.getElem?_concat_length _ _) (by intro t; simp))
    (hLocal_last atomic pf s hs _ _ hterm e (.setHeader rfl)) (fun s1 n1 => ?_)
  refine exec_cons gated atomic pf s1 _ _ _ _ _ _ _ _
    (fun _ => overlaps_hStep_of s1 _ _
      (by rw [n1.handlers]; exact List.getElem?_concat_length _ _) (by intro t; simp))
    (hLocal_last atomic pf s1 hs _ _ n1.term n1.handlers (.writeHeader rfl)) (fun s2 n2 => ?_)
  refine exec_cons gated atomic pf s2 _ _ _ _ _ _ _ _
    (fun _ => overlaps_hStep_of s2 _ _
      (by rw [n2.handlers]; exact List.getElem?_concat_length _ _) (by intro t; simp))
    (hLocal_last atomic pf s2 hs _ _ n2.term n2.handlers (.marshalled rfl)) (fun s3 n3 => ?_)
  refine exec_done gated atomic pf s3 _ _ _ n3.term ?_ ?_ ?_
  · rw [n3.handlers]
    simp only [reply_eq]
  · rw [n3.dispatchers, n2.dispatchers, n1.dispatchers]
  · rw [n3.dispatched, n2.dispatched, n1.dispatched]

/-- The chain of tests of the last dispatcher selects the delay of the lookup table applied to
the value the counter has at that time. -/
theorem select_exec (gated atomic : Bool) (pf : Platform) (s : Sys)
    (ds : List Dispatcher) (id : Int) (task : Task) (p : Nat) (hterm : s.term = none)
    (e : s.dispatchers = ds ++ [{ pc := .got id task, parent := p }]) :
    Exec gated atomic pf s (List.replicate (tests s.dispatched) (.dStep ds.length))
      s.handlers
      (ds ++ [{ pc := .sleeping id task (delayFor s.dispatched), parent := p }])
      s.dispatched := by
  by_cases h1 : s.dispatched = 1
  · have hm : tests s.dispatched = 1 := by simp [tests, h1]
    have hd : delayFor s.dispatched = 10 := by simp [delayFor, h1]
    rw [hm, hd]
    show Exec gated atomic pf s [.dStep ds.length] _ _ _
    refine exec_cons gated atomic pf s _ _ _ _ _ _ _ _ (fun _ => rfl)
      (dLocal_last atomic pf s ds _ _ _ hterm e (.first id task h1))
      (fun s1 n1 => ?_)
    exact exec_done gated atomic pf s1 _ _ _ n1.term n1.handlers n1.dispatchers n1.dispatched
  · by_cases h2 : s.dispatched = 2
    · have hm : tests s.dispatched = 2 := by simp [tests, h2]
      have hd : delayFor s.dispatched = 5 := by simp [delayFor, h2]
      rw [hm, hd]
      show Exec gated atomic pf s [.dStep ds.length, .dStep ds.length] _ _ _
      refine exec_cons gated atomic pf s _ _ _ _ _ _ _ _ (fun _ => rfl)
        (dLocal_last atomic pf s ds _ _ _ hterm e (.firstNot id task h1))
        (fun s1 n1 => ?_)
      refine exec_cons gated atomic pf s1 _ _ _ _ _ _ _ _ (fun _ => rfl)
        (dLocal_last atomic pf s1 ds _ _ _ n1.term n1.dispatchers
          (.second id task (by rw [n1.dispatched]; exact h2)))
        (fun s2 n2 => ?_)
      exact exec_done gated atomic pf s2 _ _ _ n2.term (n2.handlers.trans n1.handlers)
        n2.dispatchers (n2.dispatched.trans n1.dispatched)
    · have hm : tests s.dispatched = 3 := by simp [tests, h1, h2]
      rw [hm]
      show Exec gated atomic pf s [.dStep ds.length, .dStep ds.length, .dStep ds.length] _ _ _
      refine exec_cons gated atomic pf s _ _ _ _ _ _ _ _ (fun _ => rfl)
        (dLocal_last atomic pf s ds _ _ _ hterm e (.firstNot id task h1))
        (fun s1 n1 => ?_)
      refine exec_cons gated atomic pf s1 _ _ _ _ _ _ _ _ (fun _ => rfl)
        (dLocal_last atomic pf s1 ds _ _ _ n1.term n1.dispatchers
          (.secondNot id task (by rw [n1.dispatched]; exact h2)))
        (fun s2 n2 => ?_)
      by_cases h3 : s.dispatched = 3
      · have hd : delayFor s.dispatched = 7 := by simp [delayFor, h3]
        rw [hd]
        refine exec_cons gated atomic pf s2 _ _ _ _ _ _ _ _ (fun _ => rfl)
          (dLocal_last atomic pf s2 ds _ _ _ n2.term n2.dispatchers
            (.third id task (by rw [n2.dispatched, n1.dispatched]; exact h3)))
          (fun s3 n3 => ?_)
        exact exec_done gated atomic pf s3 _ _ _ n3.term
          ((n3.handlers.trans n2.handlers).trans n1.handlers)
          n3.dispatchers ((n3.dispatched.trans n2.dispatched).trans n1.dispatched)
      · have hd : delayFor s.dispatched = 15 := by simp [delayFor, h1, h2, h3]
        rw [hd]
        refine exec_cons gated atomic pf s2 _ _ _ _ _ _ _ _ (fun _ => rfl)
          (dLocal_last atomic pf s2 ds _ _ _ n2.term n2.dispatchers
            (.thirdNot id task (by rw [n2.dispatched, n1.dispatched]; exact h3)))
          (fun s3 n3 => ?_)
        exact exec_done gated atomic pf s3 _ _ _ n3.term
          ((n3.handlers.trans n2.handlers).trans n1.handlers)
          n3.dispatchers ((n3.dispatched.trans n2.dispatched).trans n1.dispatched)

/-- One submission served alone, when `k` submissions have been served before. -/
theorem serveOne_exec (gated atomic : Bool) (pf : Platform) (s : Sys)
    (k : Nat) (body : List UInt8) (task : Task) (hterm : s.term = none)
    (hl : s.listener ≠ .notStarted) (hum : pf.unmarshal body = .ok task)
    (hh : s.handlers.length = k) (hd : s.dispatchers.length = k)
    (hc : s.dispatched = wrapInt pf.intSize (k : Int))
    (hsel : ∀ d ∈ s.dispatchers, d.pc.selected = true) :
    Exec gated atomic pf s (serveOne atomic pf.intSize k body)
      (s.handlers ++ [{ body := body, pc := .done, w := okReply }])
      (s.dispatchers ++
        [{ pc := .sleeping (wrapInt pf.intSize ((k : Int) + 1)) task
                   (delayFor (wrapInt pf.intSize ((k : Int) + 1))),
           parent := k }])
      (wrapInt pf.intSize ((k : Int) + 1)) := by
  unfold serveOne
  have h1 := intake_exec gated atomic pf s body task hterm hl hum (fun _ => hsel)
  rw [hh, hd, hc, wrapInt_succ] at h1
  rw [List.append_assoc]
  refine exec_append gated atomic pf s _ _ _ _ _ _ _ _ h1 (fun s1 n1 => ?_)
  have h2 := select_exec gated atomic pf s1 s.dispatchers
    (wrapInt pf.intSize ((k : Int) + 1)) task k n1.term n1.dispatchers
  rw [hd, n1.dispatched] at h2
  refine exec_append gated atomic pf s1 _ _ _ _ _ _ _ _ h2 (fun s2 n2 => ?_)
  have h3 := respond_exec gated atomic pf s2 s.handlers body n2.term
    (by rw [n2.handlers, n1.handlers])
  rw [hh, n2.dispatchers, n2.dispatched] at h3
  exact h3

/-- Every list of decodable submissions can be served one after another, and then the
dispatchers sleep for the delays of the lookup table applied to their wrapped ordinals. -/
theorem serveAll_runs (atomic : Bool) (pf : Platform)
    (subs : List (List UInt8 × Task)) (s : Sys) (k : Nat) (hterm : s.term = none)
    (hl : s.listener ≠ .notStarted) (hum : ∀ p ∈ subs, pf.unmarshal p.1 = .ok p.2)
    (hh : s.handlers.length = k) (hd : s.dispatchers.length = k)
    (hc : s.dispatched = wrapInt pf.intSize (k : Int))
    (hsel : ∀ d ∈ s.dispatchers, d.pc.selected = true) :
    ∃ s1, runSeq atomic pf s (serveAll atomic pf.intSize k (subs.map Prod.fst)) = some s1 ∧
      s1.dispatchers.map (fun d => d.pc)
        = s.dispatchers.map (fun d => d.pc) ++ sleepers pf.intSize k (subs.map Prod.snd) ∧
      s1.dispatched = wrapInt pf.intSize ((k : Int) + subs.length) ∧ s1.term = none := by
  induction subs generalizing s k with
  | nil => exact ⟨s, by simp [serveAll, runSeq], by simp [sleepers], by simp [hc], hterm⟩
  | cons p subs ih =>
    obtain ⟨s1, hrun1, n1⟩ := serveOne_exec true atomic pf s k p.1 p.2 hterm hl
      (hum p (List.mem_cons_self _ _)) hh hd hc hsel
    obtain ⟨s2, hrun2, hpcs, hcnt, hterm2⟩ := ih s1 (k + 1) n1.term
      (by rw [n1.listener]; exact hl)
      (fun q hq => hum q (List.mem_cons_of_mem _ hq))
      (by rw [n1.handlers]; simp [hh]) (by rw [n1.dispatchers]; simp [hd])
      (by rw [n1.dispatched]; simp)
      (by
        rw [n1.dispatchers]
        intro d hmem
        rcases List.mem_append.mp hmem with hmem | hmem
        · exact hsel d hmem
        · simp at hmem
          subst hmem
          rfl)
    refine ⟨s2, ?_, ?_, ?_, hterm2⟩
    · have := runMode_append true atomic pf (serveOne atomic pf.intSize k p.1)
        (serveAll atomic pf.intSize (k + 1) (subs.map Prod.fst)) s s1 hrun1
      simp only [runMode, if_true] at this
      simp only [List.map_cons, serveAll]
      rw [this]
      exact hrun2
    · rw [hpcs, n1.dispatchers]
      simp [sleepers]
    · rw [hcnt]
      congr 1
      simp
      omega

/-! ## Sequential handling: the invariant -/

theorem getElem?_set_cases {α : Type} (l : List α) (i k : Nat) (x y z : α)
    (hget : l[i]? = some y) (h : (l.set i x)[k]? = some z) :
    (k = i ∧ z = x) ∨ (k ≠ i ∧ l[k]? = some z) := by
  rw [List.getElem?_set] at h
  by_cases hik : i = k
  · subst hik
    have hlt : i < l.length := by
      rcases List.getElem?_eq_some.mp hget with ⟨hlt, _⟩
      exact hlt
    simp [hlt] at h
    exact Or.inl ⟨rfl, h.symm⟩
  · simp [hik] at h
    exact Or.inr ⟨fun e => hik e.symm, h⟩

theorem dLocal_seq (atomic : Bool) (size : IntSize) (c c1 before ordinal : Int) (pc pc1 : DPc)
    (hk : wrapInt size (before + 1) = ordinal)
    (hl : DLocal atomic size c pc pc1 c1) (hg : SeqGood before ordinal pc) :
    (pc.selected = true → pc1.selected = true ∧ c1 = c ∧ SeqGood before ordinal pc1) ∧
    (c = (if pc.incremented then ordinal else before) →
      SeqGood before ordinal pc1 ∧ c1 = (if pc1.incremented then ordinal else before)) := by
  cases hl with
  | incr hat =>
    simp [SeqGood, DPc.selected, DPc.incremented]
    intro h
    rw [h, hk]
  | load hat => simp [SeqGood, DPc.selected, DPc.incremented]
  | store v =>
    simp only [SeqGood] at hg
    simp [SeqGood, DPc.selected, DPc.incremented]
    intro _
    rw [hg, hk]
  | capture => simp [SeqGood, DPc.selected, DPc.incremented]
  | print id =>
    simp only [SeqGood] at hg
    simp [SeqGood, DPc.selected, DPc.incremented, hg]
  | first id t hc =>
    simp only [SeqGood] at hg
    simp [SeqGood, DPc.selected, DPc.incremented, hg]
    intro h
    rw [← h, hc]
    exact ⟨rfl, rfl⟩
  | firstNot id t hc =>
    simp only [SeqGood] at hg
    simp [SeqGood, DPc.selected, DPc.incremented, hg]
    intro h
    rw [← h]
    exact ⟨hc, rfl⟩
  | second id t hc =>
    simp only [SeqGood] at hg
    simp [SeqGood, DPc.selected, DPc.incremented, hg]
    intro h
    rw [← h, hc]
    exact ⟨rfl, rfl⟩
  | secondNot id t hc =>
    simp only [SeqGood] at hg
    simp [SeqGood, DPc.selected, DPc.incremented, hg]
    intro h
    rw [← h]
    exact ⟨hc, rfl⟩
  | third id t hc =>
    simp only [SeqGood] at hg
    simp [SeqGood, DPc.selected, DPc.incremented, hg]
    intro h
    rw [← h, hc]
    exact ⟨rfl, rfl⟩
  | thirdNot id t hc =>
    simp only [SeqGood] at hg
    simp [SeqGood, DPc.selected, DPc.incremented, hg]
    intro h
    rw [← h] at hg ⊢
    unfold delayFor
    rw [if_neg hg.2.1, if_neg hg.2.2, if_neg hc]
    exact ⟨rfl, rfl⟩
  | wake id t secs =>
    simp only [SeqGood] at hg
    simp [SeqGood, DPc.selected, DPc.incremented, hg]

theorem sequential_set (size : IntSize) (s s1 : Sys) (j : Nat) (d : Dispatcher) (pc1 : DPc)
    (hs : Sequential size s) (hget : s.dispatchers[j]? = some d)
    (e : s1.dispatchers = s.dispatchers.set j { d with pc := pc1 })
    (hsel : d.pc.selected = true →
      pc1.selected = true ∧ s1.dispatched = s.dispatched ∧
        SeqGood (wrapInt size (j : Int)) (wrapInt size ((j : Int) + 1)) pc1)
    (hlast : s.dispatched =
        (if d.pc.incremented then wrapInt size ((j : Int) + 1) else wrapInt size (j : Int)) →
      SeqGood (wrapInt size (j : Int)) (wrapInt size ((j : Int) + 1)) pc1 ∧
        s1.dispatched =
          (if pc1.incremented then wrapInt size ((j : Int) + 1) else wrapInt size (j : Int))) :
    Sequential size s1 := by
  have hjlt : j < s.dispatchers.length := by
    rcases List.getElem?_eq_some.mp hget with ⟨hlt, _⟩
    exact hlt
  have hlen : s1.dispatchers.length = s.dispatchers.length := by rw [e]; simp
  have hcount : j + 1 = s.dispatchers.length →
      s.dispatched =
        (if d.pc.incremented then wrapInt size ((j : Int) + 1) else wrapInt size (j : Int)) :=
    fun hj => hs.counter j d hget hj
  have hdich : d.pc.selected = true ∨ j + 1 = s.dispatchers.length := by
    by_cases hj : j + 1 < s.dispatchers.length
    · exact Or.inl (hs.earlier j d hget hj)
    · exact Or.inr (by omega)
  refine ⟨?_, ?_, ?_, ?_⟩
  · intro k d1 hk
    rw [e] at hk
    rcases getElem?_set_cases _ _ _ _ _ _ hget hk with ⟨hkj, hd1⟩ | ⟨hkj, hk1⟩
    · subst hkj; subst hd1
      rcases hdich with h | h
      · exact (hsel h).2.2
      · exact (hlast (hcount h)).1
    · exact hs.good k d1 hk1
  · intro k d1 hk hlt
    rw [hlen] at hlt
    rw [e] at hk
    rcases getElem?_set_cases _ _ _ _ _ _ hget hk with ⟨hkj, hd1⟩ | ⟨hkj, hk1⟩
    · subst hkj; subst hd1
      exact (hsel (hs.earlier k d hget hlt)).1
    · exact hs.earlier k d1 hk1 hlt
  · intro k d1 hk hlt
    rw [hlen] at hlt
    rw [e] at hk
    rcases getElem?_set_cases _ _ _ _ _ _ hget hk with ⟨hkj, hd1⟩ | ⟨hkj, hk1⟩
    · subst hkj; subst hd1
      exact (hlast (hcount hlt)).2
    · have hsel1 : d.pc.selected = true := hs.earlier j d hget (by omega)
      rw [(hsel hsel1).2.1]
      exact hs.counter k d1 hk1 hlt
  · intro hnil
    rw [hnil] at hlen
    simp at hlen
    omega

theorem selected_incremented (pc : DPc) (h : pc.selected = true) : pc.incremented = true := by
  cases pc <;> simp [DPc.selected] at h <;> rfl

theorem step_sequential (atomic : Bool) (pf : Platform) (s s1 : Sys)
    (a : Action) (hs : Sequential pf.intSize s) (hov : overlaps s a = false)
    (hstep : step atomic pf s a = some s1) : Sequential pf.intSize s1 := by
  have hm := step_move atomic pf s s1 a hstep
  cases hm with
  | quiet _ _ e1 e2 e3 =>
    exact ⟨by rw [e2]; exact hs.good, by rw [e2]; exact hs.earlier,
      by rw [e2, e3]; exact hs.counter, by rw [e2, e3]; exact hs.counterZero⟩
  | arrive body _ e1 e2 e3 =>
    exact ⟨by rw [e2]; exact hs.good, by rw [e2]; exact hs.earlier,
      by rw [e2, e3]; exact hs.counter, by rw [e2, e3]; exact hs.counterZero⟩
  | hLocal i h h1 _ hget hl e1 e2 e3 =>
    exact ⟨by rw [e2]; exact hs.good, by rw [e2]; exact hs.earlier,
      by rw [e2, e3]; exact hs.counter, by rw [e2, e3]; exact hs.counterZero⟩
  | spawn i h task _ hget hpc e1 e2 e3 =>
    have hall : ∀ d ∈ s.dispatchers, d.pc.selected = true := by
      simp only [overlaps, hget, hpc] at hov
      simpa using hov
    have hcur : s.dispatched = wrapInt pf.intSize (s.dispatchers.length : Int) := by
      cases hlen : s.dispatchers.length with
      | zero =>
        rw [hs.counterZero (List.length_eq_zero.mp hlen)]
        exact (wrapInt_zero pf.intSize).symm
      | succ n =>
        have hn : n < s.dispatchers.length := by omega
        have hget1 : s.dispatchers[n]? = some s.dispatchers[n] := List.getElem?_eq_getElem hn
        have hsel := hall _ (List.getElem?_mem hget1)
        rw [hs.counter n _ hget1 (by omega), selected_incremented _ hsel]
        simp
    refine ⟨?_, ?_, ?_, ?_⟩
    · intro k d1 hk
      rw [e2, List.getElem?_append] at hk
      split at hk
      · exact hs.good k d1 hk
      · rename_i hge
        have hmem := List.getElem?_mem hk
        simp at hmem
        subst hmem
        trivial
    · intro k d1 hk hlt
      rw [e2] at hk hlt
      simp at hlt
      rw [List.getElem?_append_left hlt] at hk
      exact hall d1 (List.getElem?_mem hk)
    · intro k d1 hk hlt
      rw [e2] at hk hlt
      simp at hlt
      subst hlt
      rw [List.getElem?_concat_length] at hk
      simp at hk
      subst hk
      rw [e3, hcur]
      simp [DPc.incremented]
    · intro hnil
      rw [e2] at hnil
      simp at hnil
  | dLocal j d pc1 _ hget hl e1 e2 =>
    have hg := hs.good j d hget
    have key := dLocal_seq atomic pf.intSize s.dispatched s1.dispatched
      (wrapInt pf.intSize (j : Int)) (wrapInt pf.intSize ((j : Int) + 1)) d.pc pc1
      (wrapInt_succ pf.intSize (j : Int)) hl hg
    exact sequential_set pf.intSize s s1 j d pc1 hs hget e1
      (fun h => key.1 h) (fun h => key.2 h)
  | handoff i j h d task id _ hh hd hpc dpc e1 e2 e3 =>
    have hg := hs.good j d hd
    rw [dpc] at hg
    refine sequential_set pf.intSize s s1 j d _ hs hd e2 ?_ ?_
    · intro hsel
      rw [dpc] at hsel
      simp [DPc.selected] at hsel
    · intro hcnt
      rw [dpc] at hcnt
      exact ⟨hg, by rw [e3, hcnt]; simp [DPc.incremented]⟩

theorem runSeq_sequential (atomic : Bool) (pf : Platform)
    (xs : List Action) (s s1 : Sys) (hs : Sequential pf.intSize s)
    (hrun : runSeq atomic pf s xs = some s1) : Sequential pf.intSize s1 := by
  induction xs generalizing s with
  | nil =>
    simp [runSeq] at hrun
    exact hrun ▸ hs
  | cons a xs ih =>
    simp only [runSeq] at hrun
    split at hrun
    · simp at hrun
    · rename_i hov
      cases hst : step atomic pf s a with
      | none => simp [hst] at hrun
      | some s2 =>
        rw [hst] at hrun
        exact ih s2 (step_sequential atomic pf s s2 a hs (by simpa using hov) hst)
          (by simpa using hrun)

theorem init_sequential (size : IntSize) : Sequential size init :=
  ⟨by simp [init], by simp [init], by simp [init], fun _ => rfl⟩

/-! ## Bookkeeping between handlers and dispatchers -/

theorem countP_set_same {α : Type} (p : α → Bool) (l : List α) (i : Nat) (x y : α)
    (h : l[i]? = some y) (hp : p x = p y) : (l.set i x).countP p = l.countP p := by
  have := countP_set_add p l i x y h
  rw [hp] at this
  omega

theorem countP_set_gain {α : Type} (p : α → Bool) (l : List α) (i : Nat) (x y : α)
    (h : l[i]? = some y) (hx : p x = true) (hy : p y = false) :
    (l.set i x).countP p = l.countP p + 1 := by
  have := countP_set_add p l i x y h
  rw [hx, hy] at this
  simpa using this

theorem countP_set_loss {α : Type} (p : α → Bool) (l : List α) (i : Nat) (x y : α)
    (h : l[i]? = some y) (hx : p x = false) (hy : p y = true) :
    (l.set i x).countP p + 1 = l.countP p := by
  have := countP_set_add p l i x y h
  rw [hx, hy] at this
  simpa using this

theorem countP_concat_true {α : Type} (p : α → Bool) (l : List α) (x : α) (hx : p x = true) :
    (l ++ [x]).countP p = l.countP p + 1 := by
  rw [List.countP_append]
  simp [hx]

theorem countP_concat_false {α : Type} (p : α → Bool) (l : List α) (x : α)
    (hx : p x = false) : (l ++ [x]).countP p = l.countP p := by
  rw [List.countP_append]
  simp [hx]

theorem hLocal_pcs (pf : Platform) (h h1 : Handler)
    (hl : HLocal pf h h1) :
    h1.pc.spawned = h.pc.spawned ∧ h1.pc.pushed = h.pc.pushed ∧ h1.pc.atPush = h.pc.atPush := by
  cases hl with
  | decoded task hpc hum => rw [hpc]; exact ⟨rfl, rfl, rfl⟩
  | setHeader hpc => rw [hpc]; exact ⟨rfl, rfl, rfl⟩
  | writeHeader hpc => rw [hpc]; exact ⟨rfl, rfl, rfl⟩
  | marshalled hpc => rw [hpc]; exact ⟨rfl, rfl, rfl⟩

theorem dLocal_received (atomic : Bool) (c c1 : Int) (pc pc1 : DPc)
    (hl : DLocal atomic size c pc pc1 c1) : pc1.received = pc.received := by
  cases hl <;> rfl

theorem step_balanced (atomic : Bool) (pf : Platform) (s s1 : Sys)
    (a : Action) (hs : Balanced s) (hstep : step atomic pf s a = some s1) : Balanced s1 := by
  have hm := step_move atomic pf s s1 a hstep
  obtain ⟨b1, b2, b3, b4, b5⟩ := hs
  cases hm with
  | quiet _ _ e1 e2 e3 =>
    exact ⟨by rw [e1, e2]; exact b1, by rw [e1, e2]; exact b2, by rw [e1, e2]; exact b3,
      by rw [e1, e2]; exact b4, by rw [e1, e2]; exact b5⟩
  | arrive body _ e1 e2 e3 =>
    refine ⟨?_, ?_, ?_, ?_, ?_⟩
    · rw [e1, e2, b1]; simp [HPc.spawned]
    · rw [e1, e2, b2]; simp [HPc.pushed]
    · rw [e1, e2, ← b3]; simp [HPc.atPush]
    · rw [e1, e2]
      intro d hd
      have := b4 d hd
      simp
      omega
    · intro i h hget
      rw [e1, List.getElem?_append] at hget
      rw [e2]
      split at hget
      · exact b5 i h hget
      · rename_i hge
        have hmem := List.getElem?_mem hget
        simp at hmem
        subst hmem
        have hi : s.handlers.length ≤ i := by omega
        simp only [HPc.spawned, Bool.false_eq_true, if_false]
        rw [List.countP_eq_zero]
        intro d hd
        have := b4 d hd
        simp
        omega
  | hLocal i h h1 _ hget hl e1 e2 e3 =>
    obtain ⟨p1, p2, p3⟩ := hLocal_pcs pf h h1 hl
    refine ⟨?_, ?_, ?_, ?_, ?_⟩
    · rw [e1, e2, b1, countP_set_same (fun h => h.pc.spawned) _ _ _ _ hget p1]
    · rw [e1, e2, b2, countP_set_same (fun h => h.pc.pushed) _ _ _ _ hget p2]
    · rw [e1, e2, ← b3, countP_set_same (fun h => h.pc.atPush) _ _ _ _ hget p3]
    · rw [e1, e2]
      simpa using b4
    · intro k h2 hk
      rw [e1] at hk
      rw [e2]
      rcases getElem?_set_cases _ _ _ _ _ _ hget hk with ⟨hki, hh⟩ | ⟨hki, hk1⟩
      · subst hki; subst hh
        rw [p1]
        exact b5 k h hget
      · exact b5 k h2 hk1
  | spawn i h task _ hget hpc e1 e2 e3 =>
    have c1 := countP_set_gain (fun h => h.pc.spawned) s.handlers i { h with pc := .push task }
      h hget rfl (by simp only [hpc]; rfl)
    have c2 := countP_set_same (fun h => h.pc.pushed) s.handlers i { h with pc := .push task }
      h hget (by simp only [hpc]; rfl)
    have c3 := countP_set_gain (fun h => h.pc.atPush) s.handlers i { h with pc := .push task }
      h hget rfl (by simp only [hpc]; rfl)
    have hilt : i < s.handlers.length := by
      rcases List.getElem?_eq_some.mp hget with ⟨hlt, _⟩
      exact hlt
    refine ⟨?_, ?_, ?_, ?_, ?_⟩
    · rw [e1, e2, c1, List.length_append, b1]
      rfl
    · rw [e1, e2, c2, countP_concat_false (fun d : Dispatcher => d.pc.received) s.dispatchers
        { pc := .start, parent := i } rfl]
      exact b2
    · rw [e1, e2, c3, countP_concat_true (fun d : Dispatcher => !d.pc.received) s.dispatchers
        { pc := .start, parent := i } rfl, b3]
    · rw [e1, e2]
      intro d hd
      rcases List.mem_append.mp hd with hd | hd
      · simpa using b4 d hd
      · simp at hd
        subst hd
        simpa using hilt
    · intro k h2 hk
      rw [e1] at hk
      rw [e2]
      rcases getElem?_set_cases _ _ _ _ _ _ hget hk with ⟨hki, hh⟩ | ⟨hki, hk1⟩
      · subst hki; subst hh
        have := b5 k h hget
        rw [hpc] at this
        rw [countP_concat_true (fun d : Dispatcher => decide (d.parent = k)) s.dispatchers
          { pc := .start, parent := k } (by simp), this]
        rfl
      · have hne : ¬ i = k := fun e => hki e.symm
        rw [countP_concat_false (fun d : Dispatcher => decide (d.parent = k)) s.dispatchers
          { pc := .start, parent := i } (by simp [hne])]
        exact b5 k h2 hk1
  | dLocal j d pc1 _ hget hl e1 e2 =>
    have hr := dLocal_received atomic _ _ _ _ hl
    refine ⟨?_, ?_, ?_, ?_, ?_⟩
    · rw [e1, e2, ← b1]; simp
    · rw [e1, e2, ← b2]
      exact countP_set_same (fun d : Dispatcher => d.pc.received) _ _ { d with pc := pc1 } _
        hget hr
    · rw [e1, e2, b3]
      exact (countP_set_same (fun d : Dispatcher => !d.pc.received) _ _ { d with pc := pc1 } _
        hget (by simp [hr])).symm
    · rw [e1, e2]
      intro x hx
      rcases List.mem_or_eq_of_mem_set hx with hx | hx
      · exact b4 x hx
      · subst hx
        exact b4 d (List.getElem?_mem hget)
    · intro k h2 hk
      rw [e2] at hk
      rw [e1, countP_set_same (fun x : Dispatcher => decide (x.parent = k)) _ _
        { d with pc := pc1 } _ hget rfl]
      exact b5 k h2 hk
  | handoff i j h d task id _ hh hd hpc dpc e1 e2 e3 =>
    have c1 := countP_set_same (fun h => h.pc.spawned) s.handlers i { h with pc := .setHeader }
      h hh (by simp only [hpc]; rfl)
    have c2 := countP_set_gain (fun h => h.pc.pushed) s.handlers i { h with pc := .setHeader }
      h hh rfl (by simp only [hpc]; rfl)
    have c3 := countP_set_loss (fun h => h.pc.atPush) s.handlers i { h with pc := .setHeader }
      h hh rfl (by simp only [hpc]; rfl)
    have c4 := countP_set_gain (fun d : Dispatcher => d.pc.received) s.dispatchers j
      { d with pc := .got id task } d hd rfl (by simp only [dpc]; rfl)
    have c5 := countP_set_loss (fun d : Dispatcher => !d.pc.received) s.dispatchers j
      { d with pc := .got id task } d hd rfl (by simp only [dpc]; rfl)
    refine ⟨?_, ?_, ?_, ?_, ?_⟩
    · rw [e1, e2]
      simp
      omega
    · rw [e1, e2]
      omega
    · rw [e1, e2]
      omega
    · rw [e1, e2]
      intro x hx
      rcases List.mem_or_eq_of_mem_set hx with hx | hx
      · simpa using b4 x hx
      · subst hx
        simpa using b4 d (List.getElem?_mem hd)
    · intro k h2 hk
      rw [e1] at hk
      rw [e2, countP_set_same (fun x : Dispatcher => decide (x.parent = k)) _ _
        { d with pc := .got id task } _ hd rfl]
      rcases getElem?_set_cases _ _ _ _ _ _ hh hk with ⟨hki, hh2⟩ | ⟨hki, hk1⟩
      · subst hki; subst hh2
        have := b5 k h hh
        rw [hpc] at this
        exact this
      · exact b5 k h2 hk1

theorem reachable_balanced (atomic : Bool) (pf : Platform) (s : Sys)
    (hs : Reachable atomic pf s) : Balanced s :=
  reachable_induction atomic pf Balanced
    ⟨by simp [init], by simp [init], by simp [init], by simp [init], by simp [init]⟩
    (fun s a s1 => step_balanced atomic pf s s1 a) s hs

/-! ## The counter when increments are atomic -/

theorem dLocal_counted (size : IntSize) (c c1 : Int) (pc pc1 : DPc)
    (hl : DLocal true size c pc pc1 c1) (hn : ∀ v, pc ≠ .loaded v) :
    (∀ v, pc1 ≠ .loaded v) ∧
      ((pc1.incremented = pc.incremented ∧ c1 = c) ∨
        (pc.incremented = false ∧ pc1.incremented = true ∧ c1 = wrapInt size (c + 1))) := by
  cases hl with
  | incr hat => exact ⟨by intro v; simp, Or.inr ⟨rfl, rfl, rfl⟩⟩
  | load hat => simp at hat
  | store v => exact absurd rfl (hn v)
  | capture => exact ⟨by intro v; simp, Or.inl ⟨rfl, rfl⟩⟩
  | print id => exact ⟨by intro v; simp, Or.inl ⟨rfl, rfl⟩⟩
  | first id t hc => exact ⟨by intro v; simp, Or.inl ⟨rfl, rfl⟩⟩
  | firstNot id t hc => exact ⟨by intro v; simp, Or.inl ⟨rfl, rfl⟩⟩
  | second id t hc => exact ⟨by intro v; simp, Or.inl ⟨rfl, rfl⟩⟩
  | secondNot id t hc => exact ⟨by intro v; simp, Or.inl ⟨rfl, rfl⟩⟩
  | third id t hc => exact ⟨by intro v; simp, Or.inl ⟨rfl, rfl⟩⟩
  | thirdNot id t hc => exact ⟨by intro v; simp, Or.inl ⟨rfl, rfl⟩⟩
  | wake id t secs => exact ⟨by intro v; simp, Or.inl ⟨rfl, rfl⟩⟩

theorem step_counted (pf : Platform) (s s1 : Sys) (a : Action)
    (hs : Counted pf.intSize s) (hstep : step true pf s a = some s1) :
    Counted pf.intSize s1 := by
  have hm := step_move true pf s s1 a hstep
  obtain ⟨k1, k2⟩ := hs
  cases hm with
  | quiet _ _ e1 e2 e3 => exact ⟨by rw [e2, e3]; exact k1, by rw [e2]; exact k2⟩
  | arrive body _ e1 e2 e3 => exact ⟨by rw [e2, e3]; exact k1, by rw [e2]; exact k2⟩
  | hLocal i h h1 _ hget hl e1 e2 e3 => exact ⟨by rw [e2, e3]; exact k1, by rw [e2]; exact k2⟩
  | spawn i h task _ hget hpc e1 e2 e3 =>
    refine ⟨?_, ?_⟩
    · rw [e2, e3, k1, countP_concat_false (fun d : Dispatcher => d.pc.incremented) s.dispatchers
        { pc := .start, parent := i } rfl]
    · rw [e2]
      intro d hd v
      rcases List.mem_append.mp hd with hd | hd
      · exact k2 d hd v
      · simp at hd
        subst hd
        simp
  | dLocal j d pc1 _ hget hl e1 e2 =>
    obtain ⟨hn1, hcase⟩ := dLocal_counted _ _ _ _ _ hl (k2 d (List.getElem?_mem hget))
    refine ⟨?_, ?_⟩
    · rw [e1]
      rcases hcase with ⟨hinc, hc⟩ | ⟨hinc0, hinc1, hc⟩
      · rw [hc, k1, countP_set_same (fun d : Dispatcher => d.pc.incremented) _ _
          { d with pc := pc1 } _ hget hinc]
      · rw [hc, k1, countP_set_gain (fun d : Dispatcher => d.pc.incremented) _ _
          { d with pc := pc1 } _ hget hinc1 hinc0, wrapInt_succ]
        simp
    · rw [e1]
      intro x hx v
      rcases List.mem_or_eq_of_mem_set hx with hx | hx
      · exact k2 x hx v
      · subst hx
        exact hn1 v
  | handoff i j h d task id _ hh hd hpc dpc e1 e2 e3 =>
    refine ⟨?_, ?_⟩
    · rw [e2, e3, k1, countP_set_same (fun d : Dispatcher => d.pc.incremented) _ _
        { d with pc := .got id task } _ hd (by simp only [dpc]; rfl)]
    · rw [e2]
      intro x hx v
      rcases List.mem_or_eq_of_mem_set hx with hx | hx
      · exact k2 x hx v
      · subst hx
        simp

theorem reachable_counted (pf : Platform) (s : Sys)
    (hs : Reachable true pf s) : Counted pf.intSize s :=
  reachable_induction true pf (Counted pf.intSize)
    ⟨by simp [init, wrapInt_zero], by simp [init]⟩
    (fun s a s1 => step_counted pf s s1 a) s hs

/-- With atomic increments and fewer dispatchers than half the values of an `int`, the
counter is the number of dispatchers that have incremented. -/
theorem counted_exact (pf : Platform) (s : Sys) (hs : Counted pf.intSize s)
    (hb : s.dispatchers.length < pf.intSize.half) :
    s.dispatched = (s.dispatchers.countP (fun d => d.pc.incremented) : Int) := by
  rw [hs.counter]
  apply wrapInt_of_lt
  · exact Int.natCast_nonneg _
  · have := List.countP_le_length (fun d : Dispatcher => d.pc.incremented) (l := s.dispatchers)
    exact_mod_cast Nat.lt_of_le_of_lt this hb

/-- With atomic increments and fewer dispatchers than half the values of an `int`, a step
never lowers the counter and raises it by at most one. -/
theorem step_monotone (pf : Platform) (s s1 : Sys) (a : Action)
    (hs : Counted pf.intSize s) (hb : s.dispatchers.length < pf.intSize.half)
    (hstep : step true pf s a = some s1) :
    s.dispatched ≤ s1.dispatched ∧ s1.dispatched ≤ s.dispatched + 1 := by
  have hm := step_move true pf s s1 a hstep
  cases hm with
  | quiet _ _ e1 e2 e3 => omega
  | arrive body _ e1 e2 e3 => omega
  | hLocal i h h1 _ hget hl e1 e2 e3 => omega
  | spawn i h task _ hget hpc e1 e2 e3 => omega
  | dLocal j d pc1 _ hget hl e1 e2 =>
    obtain ⟨_, hcase⟩ := dLocal_counted _ _ _ _ _ hl (hs.noLoaded d (List.getElem?_mem hget))
    rcases hcase with ⟨_, hc⟩ | ⟨hinc0, hinc1, hc⟩
    · omega
    · have hex := counted_exact pf s hs hb
      have hgain := countP_set_gain (fun d : Dispatcher => d.pc.incremented) s.dispatchers j
        { d with pc := pc1 } d hget hinc1 hinc0
      have hle := List.countP_le_length (fun d : Dispatcher => d.pc.incremented)
        (l := s.dispatchers.set j { d with pc := pc1 })
      rw [List.length_set] at hle
      have hw : wrapInt pf.intSize (s.dispatched + 1) = s.dispatched + 1 := by
        apply wrapInt_of_lt
        · rw [hex]; omega
        · rw [hex]
          have : s.dispatchers.countP (fun d => d.pc.incremented) + 1 < pf.intSize.half := by
            omega
          exact_mod_cast this
      rw [hc, hw]
      omega
  | handoff i j h d task id _ hh hd hpc dpc e1 e2 e3 => omega

theorem received_incremented (pc : DPc) (h : pc.received = true) : pc.incremented = true := by
  cases pc <;> simp [DPc.received] at h <;> rfl

theorem spawned_decoded (pc : HPc) (h : pc.spawned = true) : pc.decoded = true := by
  cases pc <;> simp [HPc.spawned] at h <;> rfl

/-! ## A pending push can complete -/

theorem getElem?_set_self {α : Type} (l : List α) (i : Nat) (x y : α) (h : l[i]? = some y) :
    (l.set i x)[i]? = some x := by
  have hlt : i < l.length := by
    rcases List.getElem?_eq_some.mp h with ⟨hlt, _⟩
    exact hlt
  rw [List.getElem?_set]
  simp [hlt]

/-- A dispatcher that has not received can run to its receive, whatever the others do. -/
theorem advance (atomic : Bool) (pf : Platform) (j : Nat) (n : Nat) :
    ∀ (s : Sys) (d : Dispatcher), s.term = none → s.dispatchers[j]? = some d →
      d.pc.received = false → 4 - d.pc.rank ≤ n →
      ∃ sched s1 id, run atomic pf s sched = some s1 ∧ s1.term = none ∧
        s1.handlers = s.handlers ∧ s1.dispatchers[j]? = some { d with pc := .recv id } := by
  induction n with
  | zero =>
    intro s d hterm hget hrec hrank
    obtain ⟨pc, p⟩ := d
    cases pc <;> simp [DPc.rank, DPc.received] at hrank hrec
    case recv id => exact ⟨[], s, id, rfl, hterm, rfl, hget⟩
  | succ n ih =>
    intro s d hterm hget hrec hrank
    have next : ∀ (pc1 : DPc) (c1 : Int), DLocal atomic pf.intSize s.dispatched d.pc pc1 c1 →
        pc1.received = false → 4 - pc1.rank ≤ n →
        ∃ sched s1 id, run atomic pf s sched = some s1 ∧ s1.term = none ∧
          s1.handlers = s.handlers ∧ s1.dispatchers[j]? = some { d with pc := .recv id } := by
      intro pc1 c1 hl hrec1 hrank1
      obtain ⟨s1, hst, n1⟩ := dLocal_enabled atomic pf s j d pc1 c1 hterm hget hl
      obtain ⟨sched, s2, id, hrun, hterm2, hh2, hd2⟩ := ih s1 { d with pc := pc1 } n1.term
        (by rw [n1.dispatchers]; exact getElem?_set_self _ _ _ _ hget) hrec1 hrank1
      exact ⟨.dStep j :: sched, s2, id, by simp [run, hst, hrun], hterm2,
        by rw [hh2, n1.handlers], hd2⟩
    obtain ⟨pc, p⟩ := d
    cases pc with
    | start =>
      cases atomic
      · exact next (.loaded s.dispatched) _ (.load rfl) rfl (by simp only [DPc.rank] at hrank ⊢; omega)
      · exact next .stored _ (.incr rfl) rfl (by simp only [DPc.rank] at hrank ⊢; omega)
    | loaded v => exact next .stored _ (.store v) rfl (by simp only [DPc.rank] at hrank ⊢; omega)
    | stored => exact next (.captured s.dispatched) _ .capture rfl (by simp only [DPc.rank] at hrank ⊢; omega)
    | captured id => exact next (.recv id) _ (.print id) rfl (by simp [DPc.rank])
    | recv id => exact ⟨[], s, id, rfl, hterm, rfl, hget⟩
    | got id t => simp [DPc.received] at hrec
    | test2 id t => simp [DPc.received] at hrec
    | test3 id t => simp [DPc.received] at hrec
    | sleeping id t secs => simp [DPc.received] at hrec
    | finished id t secs => simp [DPc.received] at hrec

theorem push_completes (atomic : Bool) (pf : Platform) (s : Sys)
    (i j : Nat) (h : Handler) (d : Dispatcher) (task : Task) (hterm : s.term = none)
    (hh : s.handlers[i]? = some h) (hpc : h.pc = .push task)
    (hd : s.dispatchers[j]? = some d) (hrec : d.pc.received = false) :
    ∃ sched s1, run atomic pf s sched = some s1 ∧
      s1.handlers[i]? = some { h with pc := .setHeader } := by
  obtain ⟨sched, s1, id, hrun, hterm1, hh1, hd1⟩ :=
    advance atomic pf j 4 s d hterm hd hrec (by omega)
  obtain ⟨s2, hst, n2⟩ := handoff_enabled atomic pf s1 i j h { d with pc := .recv id } task id
    hterm1 (by rw [hh1]; exact hh) hd1 hpc rfl
  refine ⟨sched ++ [.handoff i j], s2, ?_, ?_⟩
  · rw [run_append, hrun]
    simp [run, hst]
  · rw [n2.handlers, hh1]
    exact getElem?_set_self _ _ _ _ hh

theorem listen_step (atomic : Bool) (pf : Platform) :
    step atomic pf init .listen = some listening := rfl

theorem cross_exec (atomic : Bool) (pf : Platform)
    (bodyA bodyB : List UInt8) (taskA taskB : Task)
    (hA : pf.unmarshal bodyA = .ok taskA) (hB : pf.unmarshal bodyB = .ok taskB) :
    Exec false atomic pf listening
      (([.arrive bodyA, .arrive bodyB, .hStep 0, .hStep 0, .hStep 1, .hStep 1]
          ++ List.replicate (if atomic then 3 else 4) (.dStep 0))
        ++ (List.replicate (if atomic then 3 else 4) (.dStep 1) ++ [.handoff 1 0, .handoff 0 1]))
      [{ body := bodyA, pc := .setHeader, w := .fresh },
       { body := bodyB, pc := .setHeader, w := .fresh }]
      [{ pc := .got 1 taskB, parent := 0 }, { pc := .got 2 taskA, parent := 1 }] 2 := by
  have nog : false = true → ∀ (s : Sys) (a : Action), overlaps s a = false :=
    fun h => absurd h (by decide)
  have w1 : wrapInt pf.intSize (0 + 1) = 1 := wrapInt_one pf.intSize
  have w2 : wrapInt pf.intSize (1 + 1) = 2 := wrapInt_two pf.intSize
  refine exec_append false atomic pf listening _ _
    [{ body := bodyA, pc := .push taskA, w := .fresh },
     { body := bodyB, pc := .push taskB, w := .fresh }] _
    [{ pc := .recv 1, parent := 0 }, { pc := .start, parent := 1 }] _ 1 _ ?_ ?_
  · show Exec false atomic pf listening (.arrive bodyA :: .arrive bodyB :: .hStep 0 ::
      .hStep 0 :: .hStep 1 :: .hStep 1 :: List.replicate _ _) _ _ _
    refine exec_cons false atomic pf listening _ _ _ _ _ _ _ _ (fun h => nog h _ _)
      (arrive_enabled atomic pf listening bodyA rfl (by decide)) (fun s1 n1 => ?_)
    refine exec_cons false atomic pf s1 _ _ _ _ _ _ _ _ (fun h => nog h _ _)
      (arrive_enabled atomic pf s1 bodyB n1.term (by rw [n1.listener]; decide))
      (fun s2 n2 => ?_)
    have h2 : s2.handlers = [] ++ { body := bodyA, pc := .decode, w := .fresh } ::
        [{ body := bodyB, pc := .decode, w := .fresh }] := by
      rw [n2.handlers, n1.handlers]; rfl
    refine exec_cons false atomic pf s2 _ _ _ _ _ _ _ _ (fun h => nog h _ _)
      (hLocal_mid atomic pf s2 [] _ _ _ n2.term h2 (.decoded taskA rfl hA)) (fun s3 n3 => ?_)
    refine exec_cons false atomic pf s3 _ _ _ _ _ _ _ _ (fun h => nog h _ _)
      (spawn_mid atomic pf s3 [] _ _ taskA n3.term n3.handlers rfl) (fun s4 n4 => ?_)
    have h4 : s4.handlers = [{ body := bodyA, pc := .push taskA, w := .fresh }] ++
        { body := bodyB, pc := .decode, w := .fresh } :: [] := n4.handlers
    refine exec_cons false atomic pf s4 _ _ _ _ _ _ _ _ (fun h => nog h _ _)
      (hLocal_mid atomic pf s4 _ [] _ _ n4.term h4 (.decoded taskB rfl hB)) (fun s5 n5 => ?_)
    refine exec_cons false atomic pf s5 _ _ _ _ _ _ _ _ (fun h => nog h _ _)
      (spawn_mid atomic pf s5 [{ body := bodyA, pc := .push taskA, w := .fresh }] [] _ taskB
        n5.term n5.handlers rfl) (fun s6 n6 => ?_)
    have d6 : s6.dispatchers = [] ++ { pc := .start, parent := 0 } ::
        [{ pc := .start, parent := 1 }] := by
      rw [n6.dispatchers, n5.dispatchers, n4.dispatchers, n3.dispatchers, n2.dispatchers,
        n1.dispatchers]
      rfl
    have c6 : s6.dispatched = 0 := by
      rw [n6.dispatched, n5.dispatched, n4.dispatched, n3.dispatched, n2.dispatched,
        n1.dispatched]
      rfl
    have key := toRecv_mid false atomic pf s6 [] _ 0 n6.term d6
    rw [n6.handlers, c6, w1] at key
    exact key
  · intro s7 n7
    have d7 : s7.dispatchers = [{ pc := .recv 1, parent := 0 }] ++
        { pc := .start, parent := 1 } :: [] := n7.dispatchers
    have key7 := toRecv_mid false atomic pf s7 _ [] 1 n7.term d7
    rw [n7.dispatched, w2] at key7
    refine exec_append false atomic pf s7 _ _ _ _ _ _ _ _ key7 (fun s8 n8 => ?_)
    have h8 : s8.handlers = [{ body := bodyA, pc := .push taskA, w := .fresh }] ++
        { body := bodyB, pc := .push taskB, w := .fresh } :: [] := by
      rw [n8.handlers, n7.handlers]; rfl
    have d8 : s8.dispatchers = [] ++ { pc := .recv 1, parent := 0 } ::
        [{ pc := .recv 2, parent := 1 }] := n8.dispatchers
    refine exec_cons false atomic pf s8 _ _ _ _ _ _ _ _ (fun h => nog h _ _)
      (handoff_mid atomic pf s8 _ [] [] _ _ _ taskB 1 n8.term h8 d8 rfl rfl) (fun s9 n9 => ?_)
    have h9 : s9.handlers = [] ++ { body := bodyA, pc := .push taskA, w := .fresh } ::
        [{ body := bodyB, pc := .setHeader, w := .fresh }] := n9.handlers
    have d9 : s9.dispatchers = [{ pc := .got 1 taskB, parent := 0 }] ++
        { pc := .recv 2, parent := 1 } :: [] := n9.dispatchers
    refine exec_cons false atomic pf s9 _ _ _ _ _ _ _ _ (fun h => nog h _ _)
      (handoff_mid atomic pf s9 [] _ _ [] _ _ taskA 2 n9.term h9 d9 rfl rfl)
      (fun s10 n10 => ?_)
    refine exec_done false atomic pf s10 _ _ _ n10.term n10.handlers n10.dispatchers ?_
    rw [n10.dispatched, n9.dispatched, n8.dispatched]

theorem run_listen (atomic : Bool) (pf : Platform)
    (rest : List Action) :
    run atomic pf init (.listen :: rest) = run atomic pf listening rest := by
  simp [run, listen_step]

theorem runSeq_listen (atomic : Bool) (pf : Platform)
    (rest : List Action) :
    runSeq atomic pf init (.listen :: rest) = runSeq atomic pf listening rest := by
  simp [runSeq, listen_step, overlaps]

theorem runSeq_reachable (atomic : Bool) (pf : Platform) (sched : List Action) (s : Sys)
    (h : runSeq atomic pf init sched = some s) : Reachable atomic pf s :=
  ⟨sched, runSeq_run atomic pf sched init s h⟩

theorem replyGood_body (h : Handler) (hg : ReplyGood h) : h.w.body = [] := by
  unfold ReplyGood at hg
  split at hg <;> rw [hg] <;> rfl

/-! ## Runs of many equal submissions -/

theorem sleepers_length (size : IntSize) (tasks : List Task) (k : Nat) :
    (sleepers size k tasks).length = tasks.length := by
  induction tasks generalizing k with
  | nil => rfl
  | cons t ts ih => simp [sleepers, ih]

theorem sleepers_received (size : IntSize) (tasks : List Task) (k : Nat) :
    ∀ pc ∈ sleepers size k tasks, pc.received = true := by
  induction tasks generalizing k with
  | nil => intro pc h; simp [sleepers] at h
  | cons t ts ih =>
    intro pc h
    simp only [sleepers, List.mem_cons] at h
    rcases h with h | h
    · rw [h]; rfl
    · exact ih (k + 1) pc h

theorem sleepers_getElem? (size : IntSize) (tasks : List Task) (k i : Nat) (t : Task)
    (h : tasks[i]? = some t) :
    (sleepers size k tasks)[i]? =
      some (.sleeping (wrapInt size (((k + i : Nat) : Int) + 1)) t
        (delayFor (wrapInt size (((k + i : Nat) : Int) + 1)))) := by
  induction tasks generalizing k i with
  | nil => simp at h
  | cons a ts ih =>
    cases i with
    | zero =>
      simp at h
      subst h
      simp [sleepers]
    | succ i =>
      simp at h
      have := ih (k + 1) i h
      simp only [sleepers, List.getElem?_cons_succ]
      rw [this]
      have e : k + 1 + i = k + (i + 1) := by omega
      rw [e]

/-- The same decodable body submitted `n` times and served one after another: the counter ends
at `n` wrapped to `int`, and the dispatcher at position `k` sleeps for the delay of the lookup
table applied to `k + 1` wrapped to `int`. -/
theorem repeat_run (atomic : Bool) (pf : Platform) (n : Nat) (body : List UInt8) (task : Task)
    (hum : pf.unmarshal body = .ok task) :
    ∃ s, runSeq atomic pf init
        (.listen :: serveAll atomic pf.intSize 0 (List.replicate n body)) = some s ∧
      s.dispatched = wrapInt pf.intSize (n : Int) ∧
      s.dispatchers.countP (fun d => d.pc.received) = n ∧
      ∀ k, k < n → (s.dispatchers[k]?).map (fun d => d.pc) =
        some (.sleeping (wrapInt pf.intSize ((k : Int) + 1)) task
          (delayFor (wrapInt pf.intSize ((k : Int) + 1)))) := by
  obtain ⟨s, hrun, hpcs, hcnt, _⟩ := serveAll_runs atomic pf (List.replicate n (body, task))
    listening 0 rfl (by decide)
    (by
      intro p hp
      rw [List.eq_of_mem_replicate hp]
      exact hum)
    rfl rfl (wrapInt_zero pf.intSize).symm (by intro d hd; cases hd)
  rw [List.map_replicate] at hrun hpcs
  have hpcs1 : s.dispatchers.map (fun d => d.pc)
      = sleepers pf.intSize 0 (List.replicate n task) := by
    simpa [listening, init] using hpcs
  refine ⟨s, by rw [runSeq_listen]; exact hrun, ?_, ?_, ?_⟩
  · rw [hcnt]
    simp
  · have h1 : s.dispatchers.countP (fun d => d.pc.received)
        = (s.dispatchers.map (fun d => d.pc)).countP (fun pc => pc.received) := by
      rw [List.countP_map]
      rfl
    rw [h1, hpcs1, List.countP_eq_length.mpr (sleepers_received _ _ _), sleepers_length]
    simp
  · intro k hk
    rw [← List.getElem?_map, hpcs1,
      sleepers_getElem? pf.intSize _ 0 k task (by rw [List.getElem?_replicate, if_pos hk])]
    simp

/-! ## Who writes the counter -/

theorem dLocal_write (atomic : Bool) (size : IntSize) (c c1 : Int) (pc pc1 : DPc)
    (hl : DLocal atomic size c pc pc1 c1) :
    (pc.incremented = true → pc1.incremented = true) ∧
    (c1 = c ∨ (pc.incremented = false ∧ pc1.incremented = true ∧
      (c1 = wrapInt size (c + 1) ∨ ∃ v, pc = .loaded v ∧ c1 = wrapInt size (v + 1)))) := by
  cases hl with
  | incr hat => exact ⟨fun _ => rfl, Or.inr ⟨rfl, rfl, Or.inl rfl⟩⟩
  | load hat => exact ⟨fun h => by simp [DPc.incremented] at h, Or.inl rfl⟩
  | store v => exact ⟨fun _ => rfl, Or.inr ⟨rfl, rfl, Or.inr ⟨v, rfl, rfl⟩⟩⟩
  | capture => exact ⟨fun _ => rfl, Or.inl rfl⟩
  | print id => exact ⟨fun _ => rfl, Or.inl rfl⟩
  | first id t hc => exact ⟨fun _ => rfl, Or.inl rfl⟩
  | firstNot id t hc => exact ⟨fun _ => rfl, Or.inl rfl⟩
  | second id t hc => exact ⟨fun _ => rfl, Or.inl rfl⟩
  | secondNot id t hc => exact ⟨fun _ => rfl, Or.inl rfl⟩
  | third id t hc => exact ⟨fun _ => rfl, Or.inl rfl⟩
  | thirdNot id t hc => exact ⟨fun _ => rfl, Or.inl rfl⟩
  | wake id t secs => exact ⟨fun _ => rfl, Or.inl rfl⟩

/-- The counter is written only by the `dispatched++` of a dispatcher that has not yet
incremented: the step stores the value read plus one, wrapped to `int`. -/
theorem step_writes (atomic : Bool) (pf : Platform) (t t1 : Sys) (b : Action)
    (hstep : step atomic pf t b = some t1) :
    t1.dispatched = t.dispatched ∨
      ∃ (j : Nat) (d d1 : Dispatcher), b = .dStep j ∧ t.dispatchers[j]? = some d ∧
        d.pc.incremented = false ∧ t1.dispatchers[j]? = some d1 ∧ d1.pc.incremented = true ∧
        (t1.dispatched = wrapInt pf.intSize (t.dispatched + 1) ∨
          ∃ v, d.pc = .loaded v ∧ t1.dispatched = wrapInt pf.intSize (v + 1)) := by
  have hm := step_move atomic pf t t1 b hstep
  cases hm with
  | quiet _ _ e1 e2 e3 => exact Or.inl e3
  | arrive body _ e1 e2 e3 => exact Or.inl e3
  | hLocal i h h1 _ hget hl e1 e2 e3 => exact Or.inl e3
  | spawn i h task _ hget hpc e1 e2 e3 => exact Or.inl e3
  | dLocal j d pc1 _ hget hl e1 e2 =>
    rcases (dLocal_write _ _ _ _ _ _ hl).2 with h | ⟨h0, h1, h2⟩
    · exact Or.inl h
    · exact Or.inr ⟨j, d, { d with pc := pc1 }, rfl, hget, h0,
        by rw [e1]; exact getElem?_set_self _ _ _ _ hget, h1, h2⟩
  | handoff i j h d task id _ hh hd hpc dpc e1 e2 e3 => exact Or.inl e3

/-- A dispatcher that has executed its increment never returns to a program point before
it, so it writes the counter at most once. -/
theorem step_incremented_stable (atomic : Bool) (pf : Platform) (t t1 : Sys) (b : Action)
    (j : Nat) (d : Dispatcher) (hstep : step atomic pf t b = some t1)
    (hget : t.dispatchers[j]? = some d) (hinc : d.pc.incremented = true) :
    ∃ d1, t1.dispatchers[j]? = some d1 ∧ d1.pc.incremented = true := by
  have hm := step_move atomic pf t t1 b hstep
  have hjlt : j < t.dispatchers.length := by
    rcases List.getElem?_eq_some.mp hget with ⟨hlt, _⟩
    exact hlt
  cases hm with
  | quiet _ _ e1 e2 e3 => exact ⟨d, by rw [e2]; exact hget, hinc⟩
  | arrive body _ e1 e2 e3 => exact ⟨d, by rw [e2]; exact hget, hinc⟩
  | hLocal i h h1 _ hget1 hl e1 e2 e3 => exact ⟨d, by rw [e2]; exact hget, hinc⟩
  | spawn i h task _ hget1 hpc e1 e2 e3 =>
    exact ⟨d, by rw [e2, List.getElem?_append_left hjlt]; exact hget, hinc⟩
  | dLocal k d0 pc1 _ hget0 hl e1 e2 =>
    by_cases hk : k = j
    · subst hk
      have hd : d0 = d := by
        rw [hget0] at hget
        exact Option.some.inj hget
      exact ⟨{ d0 with pc := pc1 }, by rw [e1]; exact getElem?_set_self _ _ _ _ hget0,
        (dLocal_write _ _ _ _ _ _ hl).1 (by rw [hd]; exact hinc)⟩
    · exact ⟨d, by rw [e1, List.getElem?_set_ne hk]; exact hget, hinc⟩
  | handoff i k h d0 task id _ hh hd hpc dpc e1 e2 e3 =>
    by_cases hk : k = j
    · subst hk
      exact ⟨{ d0 with pc := .got id task },
        by rw [e2]; exact getElem?_set_self _ _ _ _ hd, rfl⟩
    · exact ⟨d, by rw [e2, List.getElem?_set_ne hk]; exact hget, hinc⟩

/-- A pending send can complete, and then only the sending handler has changed. -/
theorem push_completes_set (atomic : Bool) (pf : Platform) (s : Sys)
    (i j : Nat) (h : Handler) (d : Dispatcher) (task : Task) (hterm : s.term = none)
    (hh : s.handlers[i]? = some h) (hpc : h.pc = .push task)
    (hd : s.dispatchers[j]? = some d) (hrec : d.pc.received = false) :
    ∃ sched s1, run atomic pf s sched = some s1 ∧
      s1.handlers = s.handlers.set i { h with pc := .setHeader } := by
  obtain ⟨sched, s1, id, hrun, hterm1, hh1, hd1⟩ :=
    advance atomic pf j 4 s d hterm hd hrec (by omega)
  obtain ⟨s2, hst, n2⟩ := handoff_enabled atomic pf s1 i j h { d with pc := .recv id } task id
    hterm1 (by rw [hh1]; exact hh) hd1 hpc rfl
  refine ⟨sched ++ [.handoff i j], s2, ?_, ?_⟩
  · rw [run_append, hrun]
    simp [run, hst]
  · rw [n2.handlers, hh1]

/-! ## The claims -/

/-- C1 (the code departs from the claim): the delay is looked up with the value the global
counter has after the receive, not with the ordinal the dispatcher captured at its start.
In `racySchedule` the first dispatcher captures ordinal 1 and sleeps 5 seconds, because a second
dispatcher has incremented the counter in between; served alone (`soloSchedule`) a dispatcher
with the same ordinal 1 and the same task sleeps 10 seconds, the value of the lookup at 1. -/
theorem dispatcher_delay_ignores_captured_ordinal :
    (run true samplePlatform init racySchedule).map (fun s => s.dispatchers.map (fun d => d.pc))
        = some [.sleeping 1 (sampleTask "A") 5, .stored]
      ∧ (run true samplePlatform init soloSchedule).map
          (fun s => s.dispatchers.map (fun d => d.pc))
        = some [.sleeping 1 (sampleTask "A") 10]
      ∧ delayFor 1 = 10 := by
  refine ⟨by rfl, by rfl, by rfl⟩

/-- C2, counterexample to the claim as stated: the counter is a Go `int` and wraps around.
With a 32-bit `int`, when `2 ^ 32 + 1` submissions are handled one after another, the
dispatcher started last (number `2 ^ 32 + 1`, at position `2 ^ 32`) finds the counter at 1 and
sleeps 10 seconds, not 15; with a 64-bit `int` the same happens to number `2 ^ 64 + 1`. -/
theorem late_dispatcher_sleeps_ten :
    (∃ s, runSeq true samplePlatform32 init
          (.listen :: serveAll true .bits32 0 (List.replicate (2 ^ 32 + 1) (sampleBody "A")))
          = some s ∧
        (s.dispatchers[2 ^ 32]?).map (fun d => d.pc) = some (.sleeping 1 (sampleTask "A") 10)) ∧
    (∃ s, runSeq true samplePlatform init
          (.listen :: serveAll true .bits64 0 (List.replicate (2 ^ 64 + 1) (sampleBody "A")))
          = some s ∧
        (s.dispatchers[2 ^ 64]?).map (fun d => d.pc) = some (.sleeping 1 (sampleTask "A") 10)) := by
  constructor
  · obtain ⟨s, hrun, _, _, hk⟩ := repeat_run true samplePlatform32 (2 ^ 32 + 1) (sampleBody "A")
      (sampleTask "A") rfl
    have hw : wrapInt samplePlatform32.intSize (((2 ^ 32 : Nat) : Int) + 1) = 1 := by
      simp only [wrapInt, samplePlatform32, IntSize.half]
      norm_num
    refine ⟨s, hrun, ?_⟩
    rw [hk (2 ^ 32) (Nat.lt_succ_self _), hw]
    rfl
  · obtain ⟨s, hrun, _, _, hk⟩ := repeat_run true samplePlatform (2 ^ 64 + 1) (sampleBody "A")
      (sampleTask "A") rfl
    have hw : wrapInt samplePlatform.intSize (((2 ^ 64 : Nat) : Int) + 1) = 1 := by
      simp only [wrapInt, samplePlatform, IntSize.half]
      norm_num
    refine ⟨s, hrun, ?_⟩
    rw [hk (2 ^ 64) (Nat.lt_succ_self _), hw]
    rfl

/-- C2, amended: when fewer submissions than half the number of values of an `int` (2^31, or
2^63 on a 64-bit platform) are handled one after another (no dispatcher is started before the
earlier ones have selected their delay), every such list of decodable submissions can be
served by a run of the process, and in every such run the `k`-th dispatcher started sleeps 10
seconds for `k = 1`, 5 for `k = 2`, 7 for `k = 3` and 15 for `k ≥ 4`, whatever the tasks
are. (List positions count from 0, so position `k` holds the dispatcher number `k + 1`.)
Without the bound the delay is the lookup at `k + 1` wrapped to `int`. -/
theorem sequential_delays (atomic : Bool) (pf : Platform)
    (subs : List (List UInt8 × Task)) (hum : ∀ p ∈ subs, pf.unmarshal p.1 = .ok p.2)
    (hlen : subs.length < pf.intSize.half) :
    (∃ s, runSeq atomic pf init
          (.listen :: serveAll atomic pf.intSize 0 (subs.map Prod.fst)) = some s ∧
        run atomic pf init
          (.listen :: serveAll atomic pf.intSize 0 (subs.map Prod.fst)) = some s ∧
        s.dispatchers.length = subs.length ∧
        ∀ (k : Nat) (p : List UInt8 × Task), subs[k]? = some p →
          (s.dispatchers[k]?).map (fun d => d.pc)
            = some (.sleeping ((k : Int) + 1) p.2 (delayFor ((k : Int) + 1)))) ∧
    (∀ (sched : List Action) (s : Sys) (k : Nat) (d : Dispatcher) (id : Int) (task : Task)
        (secs : Nat), runSeq atomic pf init sched = some s → s.dispatchers[k]? = some d →
        (d.pc = .sleeping id task secs ∨ d.pc = .finished id task secs) →
        secs = delayFor (wrapInt pf.intSize ((k : Int) + 1)) ∧
        (k + 1 < pf.intSize.half →
          secs = delayFor ((k : Int) + 1) ∧ (k = 0 → secs = 10) ∧ (k = 1 → secs = 5) ∧
            (k = 2 → secs = 7) ∧ (3 ≤ k → secs = 15))) := by
  refine ⟨?_, ?_⟩
  · obtain ⟨s1, hrun, hpcs, _, _⟩ := serveAll_runs atomic pf subs listening 0 rfl (by decide)
      hum rfl rfl (wrapInt_zero pf.intSize).symm (by intro d hd; cases hd)
    have hrun1 : runSeq atomic pf init
        (.listen :: serveAll atomic pf.intSize 0 (subs.map Prod.fst)) = some s1 := by
      rw [runSeq_listen]; exact hrun
    have hpcs1 : s1.dispatchers.map (fun d => d.pc)
        = sleepers pf.intSize 0 (subs.map Prod.snd) := by
      simpa [listening, init] using hpcs
    refine ⟨s1, hrun1, runSeq_run atomic pf _ init s1 hrun1, ?_, ?_⟩
    · have := congrArg List.length hpcs1
      rw [sleepers_length] at this
      simpa using this
    · intro k p hk
      have hklt : k < subs.length := by
        rcases List.getElem?_eq_some.mp hk with ⟨hlt, _⟩
        exact hlt
      rw [← List.getElem?_map, hpcs1,
        sleepers_getElem? pf.intSize _ 0 k p.2 (by rw [List.getElem?_map, hk]; rfl)]
      have hw : wrapInt pf.intSize (((0 + k : Nat) : Int) + 1) = (k : Int) + 1 := by
        rw [Nat.zero_add]
        apply wrapInt_of_lt
        · omega
        · have : k + 1 < pf.intSize.half := by omega
          exact_mod_cast this
      rw [hw]
  · intro sched s k d id task secs hrun hget hpc
    have hseq := runSeq_sequential atomic pf sched init s (init_sequential _) hrun
    have hg := hseq.good k d hget
    have hsecs : secs = delayFor (wrapInt pf.intSize ((k : Int) + 1)) := by
      rcases hpc with hpc | hpc <;> rw [hpc] at hg <;> exact hg.2
    refine ⟨hsecs, fun hb => ?_⟩
    have hw : wrapInt pf.intSize ((k : Int) + 1) = (k : Int) + 1 := by
      apply wrapInt_of_lt
      · omega
      · exact_mod_cast hb
    rw [hw] at hsecs
    refine ⟨hsecs, ?_, ?_, ?_, ?_⟩
    · intro hk; rw [hsecs, hk]; rfl
    · intro hk; rw [hsecs, hk]; rfl
    · intro hk; rw [hsecs, hk]; rfl
    · intro hk
      rw [hsecs]
      unfold delayFor
      rw [if_neg (by omega), if_neg (by omega), if_neg (by omega)]

/-- Witness of C2 (amended): two decodable submissions on the 64-bit sample platform. -/
theorem sequential_delays_witness :
    (∀ p ∈ [(sampleBody "A", sampleTask "A"), (sampleBody "B", sampleTask "B")],
        samplePlatform.unmarshal p.1 = .ok p.2) ∧
    [(sampleBody "A", sampleTask "A"), (sampleBody "B", sampleTask "B")].length
      < samplePlatform.intSize.half ∧
    (∃ s, runSeq true samplePlatform init
          (.listen :: serveAll true .bits64 0 [sampleBody "A", sampleBody "B"]) = some s ∧
        (s.dispatchers[0]?).map (fun d => d.pc) = some (.sleeping 1 (sampleTask "A") 10) ∧
        (s.dispatchers[1]?).map (fun d => d.pc) = some (.sleeping 2 (sampleTask "B") 5)) :=
  ⟨by intro p hp; simp at hp; rcases hp with rfl | rfl <;> rfl,
   by decide,
   (sequential_delays true samplePlatform
      [(sampleBody "A", sampleTask "A"), (sampleBody "B", sampleTask "B")]
      (by intro p hp; simp at hp; rcases hp with rfl | rfl <;> rfl) (by decide)).1.imp
      (fun _ hx => ⟨hx.1, hx.2.2.2 0 _ rfl, hx.2.2.2 1 _ rfl⟩)⟩

/-- C3: a request whose body decodes into a task (any task: no field is validated) can be run
to the return of `handle`, and then its reply is exactly status 200, the header
`Content-Type: application/json` and an empty body; and in every reachable state every
`handle` that has returned has written exactly this reply, and no `handle` has written any
body byte (the marshalled `Response` is discarded). -/
theorem handle_reply (atomic : Bool) (pf : Platform) (s : Sys)
    (body : List UInt8) (task : Task) (hterm : s.term = none)
    (hl : s.listener ≠ .notStarted) (hum : pf.unmarshal body = .ok task) :
    (∃ s1, run atomic pf s
        (intake atomic s.handlers.length s.dispatchers.length body ++ respond s.handlers.length)
          = some s1 ∧
        s1.handlers[s.handlers.length]? = some { body := body, pc := .done, w := okReply }) ∧
    okReply = { header := [("Content-Type", "application/json")], status := some 200,
                body := [] } ∧
    (∀ (s1 : Sys) (i : Nat) (h : Handler), Reachable atomic pf s1 →
        s1.handlers[i]? = some h →
        h.w.body = [] ∧ (h.pc = .done → h.w = okReply ∧ ∃ t, pf.unmarshal h.body = .ok t)) := by
  refine ⟨?_, rfl, ?_⟩
  · have h1 := intake_exec false atomic pf s body task hterm hl hum
      (fun h => absurd h (by decide))
    have h2 : Exec false atomic pf s
        (intake atomic s.handlers.length s.dispatchers.length body ++ respond s.handlers.length)
        (s.handlers ++ [{ body := body, pc := .done, w := okReply }])
        (s.dispatchers ++ [{ pc := .got (wrapInt pf.intSize (s.dispatched + 1)) task,
                             parent := s.handlers.length }])
        (wrapInt pf.intSize (s.dispatched + 1)) := by
      refine exec_append false atomic pf s _ _ _ _ _ _ _ _ h1 (fun s1 n1 => ?_)
      have h3 := respond_exec false atomic pf s1 s.handlers body n1.term n1.handlers
      rw [n1.dispatchers, n1.dispatched] at h3
      exact h3
    obtain ⟨s1, hrun, n1⟩ := h2
    refine ⟨s1, by simpa [runMode] using hrun, ?_⟩
    rw [n1.handlers]
    exact List.getElem?_concat_length _ _
  · intro s1 i h hs1 hget
    obtain ⟨hr, hd⟩ := reachable_handlersGood atomic pf s1 hs1 h (List.getElem?_mem hget)
    refine ⟨replyGood_body h hr, fun hpc => ⟨?_, hd (by rw [hpc]; rfl)⟩⟩
    simpa [ReplyGood, hpc] using hr

/-- Witness of C3: the first request of a process, with the body `sampleBody "A"`. -/
theorem handle_reply_witness :
    listening.term = none ∧ listening.listener ≠ .notStarted ∧
    samplePlatform.unmarshal (sampleBody "A") = .ok (sampleTask "A") ∧
    ∃ s1, run true samplePlatform listening (intake true 0 0 (sampleBody "A") ++ respond 0) = some s1 ∧
      s1.handlers[0]? = some { body := sampleBody "A", pc := .done, w := okReply } :=
  ⟨rfl, by decide, rfl,
   (handle_reply true samplePlatform listening (sampleBody "A") (sampleTask "A")
      rfl (by decide) rfl).1⟩

/-- C4: when the body of a request fails to decode, the decode step of `handle` ends the
process through `log.Fatal` (exit status 1) and nothing after it happens: the dispatchers, the
counter and the handlers are unchanged (this handler has started no dispatcher, has pushed
no task and has written neither status nor header), and no further step is possible. -/
theorem decode_failure_is_fatal (atomic : Bool) (pf : Platform)
    (s : Sys) (i : Nat) (h : Handler) (err : String) (hs : Reachable atomic pf s)
    (hterm : s.term = none) (hget : s.handlers[i]? = some h) (hpc : h.pc = .decode)
    (hum : pf.unmarshal h.body = .error err) :
    ∃ s1, step atomic pf s (.hStep i) = some s1 ∧
      s1.term = some (.osExit 1) ∧ s1.term.map Termination.exitStatus = some 1 ∧
      s1.dispatchers = s.dispatchers ∧ s1.dispatched = s.dispatched ∧
      s1.handlers = s.handlers ∧
      s.dispatchers.countP (fun d => decide (d.parent = i)) = 0 ∧
      h.pc.atPush = false ∧ h.pc.pushed = false ∧ h.w = ResponseWriter.fresh ∧
      (∀ a, step atomic pf s1 a = none) ∧
      (∀ a rest, run atomic pf s1 (a :: rest) = none) := by
  have hstep : step atomic pf s (.hStep i) = some (logFatal
      { s with out := s.out ++ ["getting request body",
          "attempting to pf request body to json for task"] } err) := by
    unfold step
    rw [hterm]
    simp only [hget]
    unfold handlerStep
    simp only [hpc, hum, hterm]
  have hlin := (reachable_balanced atomic pf s hs).lineage i h hget
  have hgood := (reachable_handlersGood atomic pf s hs h (List.getElem?_mem hget)).1
  refine ⟨_, hstep, rfl, rfl, rfl, rfl, rfl, ?_, by rw [hpc]; rfl, by rw [hpc]; rfl, ?_,
    fun a => step_terminated atomic pf _ (.osExit 1) a rfl, fun a rest => ?_⟩
  · rw [hlin, hpc]
    rfl
  · simpa [ReplyGood, hpc] using hgood
  · simp only [run]
    rw [step_terminated atomic pf _ (.osExit 1) a rfl]
    rfl

/-- Witness of C4: the empty body, which the sample decoder rejects. -/
theorem decode_failure_is_fatal_witness :
    Reachable true samplePlatform malformedArrived ∧ malformedArrived.term = none ∧
    malformedArrived.handlers[0]? = some { body := [], pc := .decode, w := .fresh } ∧
    samplePlatform.unmarshal [] = .error "unexpected end of JSON input" ∧
    ∃ s1, step true samplePlatform malformedArrived (.hStep 0) = some s1 ∧
      s1.term = some (.osExit 1) ∧ s1.dispatchers = [] ∧ s1.dispatched = 0 :=
  ⟨⟨[.listen, .arrive []], rfl⟩, rfl, rfl, rfl,
   (decode_failure_is_fatal true samplePlatform malformedArrived 0
      { body := [], pc := .decode, w := .fresh } "unexpected end of JSON input"
      ⟨[.listen, .arrive []], rfl⟩ rfl rfl rfl rfl).imp
      (fun _ hx => ⟨hx.1, hx.2.1, hx.2.2.2.1, hx.2.2.2.2.1⟩)⟩

/-- C5, counterexample to the claim as stated: when the listener fails to bind and `main`
takes the error case of its `select`, the process ends because `main` returns, and its exit
status is 0, not a non-zero one. -/
theorem listener_error_exit_status_is_zero :
    (run true samplePlatform init bindFailureSchedule).map
        (fun s => s.term.map Termination.exitStatus) = some (some 0) := by
  rfl

/-- C5, amended: when the first event `main` observes is a listener error, the error is
reported (printed after the line `back in main thread with an error`) and the process
terminates because `main` returns without a call of `os.Exit`, which gives exit status 0;
no further step is possible. -/
theorem listener_error_reported_then_main_returns (atomic : Bool)
    (pf : Platform) (s : Sys) (err : String) (hterm : s.term = none)
    (hl : s.listener = .failed err) :
    ∃ s1, step atomic pf s .selectErr = some s1 ∧
      s1.out = s.out ++ ["back in main thread with an error", err] ∧
      s1.term = some .mainReturned ∧ s1.term.map Termination.exitStatus = some 0 ∧
      (∀ a, step atomic pf s1 a = none) := by
  have hstep : step atomic pf s .selectErr = some { s with
      term := some .mainReturned,
      out := s.out ++ ["back in main thread with an error", err] } := by
    unfold step
    rw [hterm]
    simp only [hl]
  exact ⟨_, hstep, rfl, rfl, rfl, fun a => step_terminated atomic pf _ .mainReturned a rfl⟩

/-- Witness of C5 (amended): a listener that could not bind. -/
theorem listener_error_reported_then_main_returns_witness :
    listenerFailed.term = none ∧
    listenerFailed.listener = .failed "listen tcp :9000: bind: address already in use" ∧
    ∃ s1, step true samplePlatform listenerFailed .selectErr = some s1 ∧
      s1.term = some .mainReturned :=
  ⟨rfl, rfl,
   (listener_error_reported_then_main_returns true samplePlatform listenerFailed
      "listen tcp :9000: bind: address already in use" rfl rfl).imp
      (fun _ hx => ⟨hx.1, hx.2.2.1⟩)⟩

/-- C6: when the first event `main` observes is an interrupt or termination signal, the next
state is terminated with exit status 0, in every state of the handlers and dispatchers: the
step is enabled whatever they are doing, leaves them as they are (blocked in a receive,
sleeping, or anything else) and nothing runs afterwards. -/
theorem interrupt_exits_zero_without_waiting (atomic : Bool)
    (pf : Platform) (s : Sys) (sig : Signal) (hterm : s.term = none)
    (hint : s.interrupt = some sig) :
    ∃ s1, step atomic pf s .selectSig = some s1 ∧
      s1.term = some (.osExit 0) ∧ s1.term.map Termination.exitStatus = some 0 ∧
      s1.dispatchers = s.dispatchers ∧ s1.handlers = s.handlers ∧
      s1.dispatched = s.dispatched ∧
      s1.out = s.out ++ [sig.text ++ " signal type received, shutting down gracefully."] ∧
      (∀ a, step atomic pf s1 a = none) := by
  have hstep : step atomic pf s .selectSig = some { s with
      interrupt := none,
      term := some (.osExit 0),
      out := s.out ++ [sig.text ++ " signal type received, shutting down gracefully."] } := by
    unfold step
    rw [hterm]
    simp only [hint]
  exact ⟨_, hstep, rfl, rfl, rfl, rfl, rfl, rfl,
    fun a => step_terminated atomic pf _ (.osExit 0) a rfl⟩

/-- Witness of C6: a termination signal while one dispatcher sleeps and another is blocked in
its receive. -/
theorem interrupt_exits_zero_without_waiting_witness :
    busyState.term = none ∧ busyState.interrupt = some .sigterm ∧
    ∃ s1, step true samplePlatform busyState .selectSig = some s1 ∧
      s1.term = some (.osExit 0) ∧ s1.dispatchers = busyState.dispatchers :=
  ⟨rfl, rfl,
   (interrupt_exits_zero_without_waiting true samplePlatform busyState .sigterm rfl rfl).imp
      (fun _ hx => ⟨hx.1, hx.2.1, hx.2.2.2.1⟩)⟩

/-- C7: an execution of `handle` whose body decodes (in any reachable running state, with or
without atomic increments) decodes, then its `go` statement starts exactly one dispatcher
(none existed for it before), then it is at its send, and there is a schedule in which the
send completes, after which exactly one dispatcher has been started by it and exactly one
more task has been received. In every reachable state: the `go` statement of a handler adds
one dispatcher and leaves the handler at its send; every handler has started exactly one
dispatcher if it has executed its `go` statement and none otherwise; the tasks received are as
many as the completed sends; the handlers at (or blocked in) the send are at most as many as
the dispatchers that have not yet received; and for every such handler there is a dispatcher
that has not yet received and, while the process runs, a schedule in which the send
completes. -/
theorem dispatcher_available_for_every_push (atomic : Bool) (pf : Platform) (s : Sys)
    (i : Nat) (h : Handler) (task : Task) (hs : Reachable atomic pf s) (hterm : s.term = none)
    (hget : s.handlers[i]? = some h) (hpc : h.pc = .decode)
    (hum : pf.unmarshal h.body = .ok task) :
    (∃ s1 s2, step atomic pf s (.hStep i) = some s1 ∧
        s1.handlers[i]? = some { h with pc := .spawn task } ∧
        s1.dispatchers = s.dispatchers ∧
        s.dispatchers.countP (fun d => decide (d.parent = i)) = 0 ∧
        step atomic pf s1 (.hStep i) = some s2 ∧
        s2.dispatchers = s.dispatchers ++ [{ pc := .start, parent := i }] ∧
        s2.handlers[i]? = some { h with pc := .push task } ∧
        ∃ sched s3, run atomic pf s2 sched = some s3 ∧
          s3.handlers[i]? = some { h with pc := .setHeader } ∧
          s3.dispatchers.countP (fun d => decide (d.parent = i)) = 1 ∧
          s3.dispatchers.countP (fun d => d.pc.received)
            = s.dispatchers.countP (fun d => d.pc.received) + 1) ∧
    (∀ r : Sys, Reachable atomic pf r →
      (∀ (i : Nat) (h : Handler) (task : Task), r.term = none → r.handlers[i]? = some h →
          h.pc = .spawn task →
          ∃ r1, step atomic pf r (.hStep i) = some r1 ∧
            r1.dispatchers = r.dispatchers ++ [{ pc := .start, parent := i }] ∧
            r1.handlers[i]? = some { h with pc := .push task }) ∧
      (∀ (i : Nat) (h : Handler), r.handlers[i]? = some h →
          r.dispatchers.countP (fun d => decide (d.parent = i))
            = if h.pc.spawned then 1 else 0) ∧
      r.dispatchers.countP (fun d => d.pc.received)
        = r.handlers.countP (fun h => h.pc.pushed) ∧
      r.handlers.countP (fun h => h.pc.atPush)
        ≤ r.dispatchers.countP (fun d => !d.pc.received) ∧
      (∀ (i : Nat) (h : Handler) (task : Task), r.handlers[i]? = some h → h.pc = .push task →
          ∃ (j : Nat) (d : Dispatcher), r.dispatchers[j]? = some d ∧ d.pc.received = false ∧
            (r.term = none → ∃ sched r1, run atomic pf r sched = some r1 ∧
              r1.handlers[i]? = some { h with pc := .setHeader }))) := by
  have available : ∀ (r : Sys), Reachable atomic pf r → ∀ (i : Nat) (h : Handler)
      (task : Task), r.handlers[i]? = some h → h.pc = .push task →
      ∃ (j : Nat) (d : Dispatcher), r.dispatchers[j]? = some d ∧ d.pc.received = false := by
    intro r hr i h task hget hpc
    have hb := reachable_balanced atomic pf r hr
    have hpos : 0 < r.handlers.countP (fun h => h.pc.atPush) :=
      List.countP_pos_iff.mpr ⟨h, List.getElem?_mem hget, by simp only [hpc]; rfl⟩
    rw [hb.pending] at hpos
    obtain ⟨d, hmem, hrec⟩ := List.countP_pos_iff.mp hpos
    obtain ⟨j, hj⟩ := List.mem_iff_getElem?.mp hmem
    exact ⟨j, d, hj, by simpa using hrec⟩
  refine ⟨?_, ?_⟩
  · have hb := reachable_balanced atomic pf s hs
    obtain ⟨s1, hst1, n1⟩ := hLocal_enabled atomic pf s i h { h with pc := .spawn task } hterm
      hget (.decoded task hpc hum)
    have hget1 : s1.handlers[i]? = some { h with pc := .spawn task } := by
      rw [n1.handlers]; exact getElem?_set_self _ _ _ _ hget
    obtain ⟨s2, hst2, n2⟩ := spawn_enabled atomic pf s1 i { h with pc := .spawn task } task
      n1.term hget1 rfl
    have hget2 : s2.handlers[i]? = some { h with pc := .push task } := by
      rw [n2.handlers]; exact getElem?_set_self _ _ _ _ hget1
    have hr2 : Reachable atomic pf s2 :=
      reachable_run atomic pf s s2 [.hStep i, .hStep i] hs (by simp [run, hst1, hst2])
    obtain ⟨j, d, hj, hrec⟩ := available s2 hr2 i _ task hget2 rfl
    obtain ⟨sched, s3, hrun3, hh3⟩ := push_completes_set atomic pf s2 i j
      { h with pc := .push task } d task n2.term hget2 rfl hj hrec
    have hr3 : Reachable atomic pf s3 := reachable_run atomic pf s2 s3 sched hr2 hrun3
    have hb3 := reachable_balanced atomic pf s3 hr3
    have hget3 : s3.handlers[i]? = some { h with pc := .setHeader } := by
      rw [hh3]; exact getElem?_set_self _ _ _ _ hget2
    have hzero : s.dispatchers.countP (fun d => decide (d.parent = i)) = 0 := by
      rw [hb.lineage i h hget, hpc]
      rfl
    have hone : s3.dispatchers.countP (fun d => decide (d.parent = i)) = 1 := by
      rw [hb3.lineage i _ hget3]
      rfl
    have hpushed : s3.handlers.countP (fun h => h.pc.pushed)
        = s.handlers.countP (fun h => h.pc.pushed) + 1 := by
      rw [hh3, countP_set_gain (fun h : Handler => h.pc.pushed) s2.handlers i
          { h with pc := .setHeader } { h with pc := .push task } hget2 rfl rfl,
        n2.handlers, countP_set_same (fun h : Handler => h.pc.pushed) s1.handlers i
          { h with pc := .push task } { h with pc := .spawn task } hget1 rfl,
        n1.handlers, countP_set_same (fun h : Handler => h.pc.pushed) s.handlers i
          { h with pc := .spawn task } h hget (by simp only [hpc]; rfl)]
    exact ⟨s1, s2, hst1, hget1, n1.dispatchers, hzero, hst2,
      by rw [n2.dispatchers, n1.dispatchers], hget2, sched, s3, hrun3, hget3, hone,
      by rw [hb3.received, hpushed, hb.received]⟩
  · intro r hr
    have hb := reachable_balanced atomic pf r hr
    refine ⟨?_, hb.lineage, hb.received, Nat.le_of_eq hb.pending, ?_⟩
    · intro i h task hterm hget hpc
      obtain ⟨r1, hst, n1⟩ := spawn_enabled atomic pf r i h task hterm hget hpc
      exact ⟨r1, hst, n1.dispatchers,
        by rw [n1.handlers]; exact getElem?_set_self _ _ _ _ hget⟩
    · intro i h task hget hpc
      obtain ⟨j, d, hj, hrec⟩ := available r hr i h task hget hpc
      exact ⟨j, d, hj, hrec, fun hterm =>
        push_completes atomic pf r i j h d task hterm hget hpc hj hrec⟩

/-- Witness of C7: the first request of a process, with the body `sampleBody "A"`, about to
be decoded. -/
theorem dispatcher_available_for_every_push_witness :
    Reachable true samplePlatform arrivedA ∧ arrivedA.term = none ∧
    arrivedA.handlers[0]? = some { body := sampleBody "A", pc := .decode, w := .fresh } ∧
    samplePlatform.unmarshal (sampleBody "A") = .ok (sampleTask "A") ∧
    ∃ s1 s2, step true samplePlatform arrivedA (.hStep 0) = some s1 ∧
      s1.handlers[0]? = some { body := sampleBody "A", pc := .spawn (sampleTask "A"),
                               w := .fresh } ∧
      s1.dispatchers = [] ∧
      step true samplePlatform s1 (.hStep 0) = some s2 ∧
      s2.dispatchers = [{ pc := .start, parent := 0 }] ∧
      s2.handlers[0]? = some { body := sampleBody "A", pc := .push (sampleTask "A"),
                               w := .fresh } ∧
      ∃ sched s3, run true samplePlatform s2 sched = some s3 ∧
        s3.handlers[0]? = some { body := sampleBody "A", pc := .setHeader, w := .fresh } ∧
        s3.dispatchers.countP (fun d => decide (d.parent = 0)) = 1 :=
  ⟨⟨[.listen, .arrive (sampleBody "A")], rfl⟩, rfl, rfl, rfl,
   (dispatcher_available_for_every_push true samplePlatform arrivedA 0
      { body := sampleBody "A", pc := .decode, w := .fresh } (sampleTask "A")
      ⟨[.listen, .arrive (sampleBody "A")], rfl⟩ rfl rfl rfl rfl).1.imp
    (fun _ hx => hx.imp (fun _ hy =>
      ⟨hy.1, hy.2.1, hy.2.2.1, hy.2.2.2.2.1, hy.2.2.2.2.2.1, hy.2.2.2.2.2.2.1,
        hy.2.2.2.2.2.2.2.imp (fun _ hz => hz.imp (fun _ hw => ⟨hw.1, hw.2.1, hw.2.2.1⟩))⟩))⟩

/-- C8, counterexample to the claim as stated.  First, `dispatched++` is an unsynchronised
read followed by a write: after `lostUpdateSchedule` the counter is 2 and dispatcher 0 still
holds the value 0 it read; its write then lowers the counter to 1.  Second, the counter is a Go
`int` and wraps around: after `2 ^ 31` submissions handled one at a time with a 32-bit `int`
(`2 ^ 63` with a 64-bit `int`) the counter is the smallest `int`, not the number of
submissions. -/
theorem counter_lowered_by_stale_store_or_wrap :
    ((run false samplePlatform init lostUpdateSchedule).map (fun s => s.dispatched) = some 2 ∧
      (run false samplePlatform init (lostUpdateSchedule ++ [.dStep 0])).map
        (fun s => s.dispatched) = some 1) ∧
    (∃ s, runSeq true samplePlatform32 init
          (.listen :: serveAll true .bits32 0 (List.replicate (2 ^ 31) (sampleBody "A")))
          = some s ∧ s.dispatched = -2147483648) ∧
    (∃ s, runSeq true samplePlatform init
          (.listen :: serveAll true .bits64 0 (List.replicate (2 ^ 63) (sampleBody "A")))
          = some s ∧ s.dispatched = -9223372036854775808) := by
  refine ⟨⟨by rfl, by rfl⟩, ?_, ?_⟩
  · obtain ⟨s, hrun, hc, _, _⟩ := repeat_run true samplePlatform32 (2 ^ 31) (sampleBody "A")
      (sampleTask "A") rfl
    have hw : wrapInt samplePlatform32.intSize ((2 ^ 31 : Nat) : Int) = -2147483648 := by
      simp only [wrapInt, samplePlatform32, IntSize.half]
      norm_num
    exact ⟨s, hrun, hc.trans hw⟩
  · obtain ⟨s, hrun, hc, _, _⟩ := repeat_run true samplePlatform (2 ^ 63) (sampleBody "A")
      (sampleTask "A") rfl
    have hw : wrapInt samplePlatform.intSize ((2 ^ 63 : Nat) : Int) = -9223372036854775808 := by
      simp only [wrapInt, samplePlatform, IntSize.half]
      norm_num
    exact ⟨s, hrun, hc.trans hw⟩

/-- C8, amended: the counter is zero at process start.  In every step, atomic or not, the
counter is written only by the `dispatched++` of a dispatcher that has not yet incremented,
which stores the value it read plus one (wrapped to `int`), and a dispatcher that has
incremented stays so: each dispatcher writes the counter at most once, exactly once by the
time it has passed its `dispatched++`, and nothing else writes or resets it; there is one
dispatcher per handler that has executed its `go` statement.
As long as fewer dispatchers have been started than half the number of values of an `int`
(2^31, or 2^63 on a 64-bit platform): when every increment runs as one atomic step the counter
equals the number of dispatchers that have executed their increment and no step lowers it or
raises it by more than one; and after `n` decodable submissions handled one at a time, with
or without atomic increments, the counter equals `n`. -/
theorem counter_counts_increments (pf : Platform) (s s1 : Sys) (a : Action)
    (hs : Reachable true pf s) (hb : s.dispatchers.length < pf.intSize.half)
    (hstep : step true pf s a = some s1) :
    init.dispatched = 0 ∧
    s.dispatched = (s.dispatchers.countP (fun d => d.pc.incremented) : Int) ∧
    s.dispatchers.countP (fun d => d.pc.incremented) ≤ s.dispatchers.length ∧
    s.dispatchers.length = s.handlers.countP (fun h => h.pc.spawned) ∧
    s.dispatched ≤ s1.dispatched ∧ s1.dispatched ≤ s.dispatched + 1 ∧
    (∀ (atomic : Bool) (t t1 : Sys) (b : Action), step atomic pf t b = some t1 →
        t1.dispatched = t.dispatched ∨
          ∃ (j : Nat) (d d1 : Dispatcher), b = .dStep j ∧ t.dispatchers[j]? = some d ∧
            d.pc.incremented = false ∧ t1.dispatchers[j]? = some d1 ∧
            d1.pc.incremented = true ∧
            (t1.dispatched = wrapInt pf.intSize (t.dispatched + 1) ∨
              ∃ v, d.pc = .loaded v ∧ t1.dispatched = wrapInt pf.intSize (v + 1))) ∧
    (∀ (atomic : Bool) (t t1 : Sys) (b : Action) (j : Nat) (d : Dispatcher),
        step atomic pf t b = some t1 → t.dispatchers[j]? = some d →
        d.pc.incremented = true →
        ∃ d1, t1.dispatchers[j]? = some d1 ∧ d1.pc.incremented = true) ∧
    (∀ (atomic : Bool) (r : Sys), Reachable atomic pf r →
        r.dispatchers.length = r.handlers.countP (fun h => h.pc.spawned) ∧
        ∀ (i : Nat) (h : Handler), r.handlers[i]? = some h →
          r.dispatchers.countP (fun d => decide (d.parent = i))
            = if h.pc.spawned then 1 else 0) ∧
    (∀ (atomic : Bool) (subs : List (List UInt8 × Task)),
        (∀ p ∈ subs, pf.unmarshal p.1 = .ok p.2) → subs.length < pf.intSize.half →
        ∃ s2, runSeq atomic pf init
            (.listen :: serveAll atomic pf.intSize 0 (subs.map Prod.fst)) = some s2 ∧
          s2.dispatched = (subs.length : Int)) ∧
    (∀ (atomic : Bool) (sched : List Action) (s2 : Sys),
        runSeq atomic pf init sched = some s2 →
        (∀ d ∈ s2.dispatchers, d.pc.incremented = true) →
        s2.dispatchers.length < pf.intSize.half →
        s2.dispatched = (s2.dispatchers.length : Int)) := by
  have hc := reachable_counted pf s hs
  have hm := step_monotone pf s s1 a hc hb hstep
  refine ⟨rfl, counted_exact pf s hc hb, List.countP_le_length _,
    (reachable_balanced true pf s hs).spawned, hm.1, hm.2,
    fun atomic t t1 b h => step_writes atomic pf t t1 b h,
    fun atomic t t1 b j d h hg hi => step_incremented_stable atomic pf t t1 b j d h hg hi,
    fun atomic r hr => ⟨(reachable_balanced atomic pf r hr).spawned,
      (reachable_balanced atomic pf r hr).lineage⟩,
    ?_, ?_⟩
  · intro atomic subs hum hlen
    obtain ⟨s2, hrun, _, hcnt, _⟩ := serveAll_runs atomic pf subs listening 0 rfl (by decide)
      hum rfl rfl (wrapInt_zero pf.intSize).symm (by intro d hd; cases hd)
    refine ⟨s2, by rw [runSeq_listen]; exact hrun, ?_⟩
    rw [hcnt]
    have hw : wrapInt pf.intSize (((0 : Nat) : Int) + (subs.length : Int))
        = ((0 : Nat) : Int) + (subs.length : Int) := by
      apply wrapInt_of_lt
      · omega
      · have : 0 + subs.length < pf.intSize.half := by omega
        exact_mod_cast this
    rw [hw]
    simp
  · intro atomic sched s2 hrun hall hlen
    have hseq := runSeq_sequential atomic pf sched init s2 (init_sequential _) hrun
    cases hl : s2.dispatchers.length with
    | zero => simpa using hseq.counterZero (List.length_eq_zero.mp hl)
    | succ n =>
      have hn : n < s2.dispatchers.length := by omega
      have hget : s2.dispatchers[n]? = some s2.dispatchers[n] := List.getElem?_eq_getElem hn
      rw [hseq.counter n _ hget (by omega), hall _ (List.getElem?_mem hget), if_pos rfl]
      have hw : wrapInt pf.intSize ((n : Int) + 1) = (n : Int) + 1 := by
        apply wrapInt_of_lt
        · omega
        · have : n + 1 < pf.intSize.half := by omega
          exact_mod_cast this
      rw [hw]
      simp

/-- Witness of C8 (amended): the atomic increment of the first dispatcher. -/
theorem counter_counts_increments_witness :
    Reachable true samplePlatform pushPending ∧
    pushPending.dispatchers.length < samplePlatform.intSize.half ∧
    step true samplePlatform pushPending (.dStep 0) = some pushPendingNext ∧
    pushPending.dispatched = 0 ∧ pushPendingNext.dispatched = 1 ∧
    pushPending.dispatched ≤ pushPendingNext.dispatched :=
  ⟨⟨[.listen, .arrive (sampleBody "A"), .hStep 0, .hStep 0], rfl⟩, by decide, rfl, rfl, rfl,
   (counter_counts_increments samplePlatform pushPending pushPendingNext (.dStep 0)
      ⟨[.listen, .arrive (sampleBody "A"), .hStep 0, .hStep 0], rfl⟩ (by decide)
      rfl).2.2.2.2.1⟩

/-- C9: for two concurrently submitted tasks A and B (any two decodable bodies) there is an
interleaving, `crossSchedule`, in which the dispatcher started by the handler of A (ghost field
`parent = 0`) receives the task of B and the dispatcher started by the handler of B
(`parent = 1`) receives the task of A. -/
theorem cross_delivery_possible (atomic : Bool) (pf : Platform)
    (bodyA bodyB : List UInt8) (taskA taskB : Task)
    (hA : pf.unmarshal bodyA = .ok taskA) (hB : pf.unmarshal bodyB = .ok taskB) :
    ∃ s, run atomic pf init (crossSchedule atomic bodyA bodyB) = some s ∧
      s.handlers.map (fun h => h.body) = [bodyA, bodyB] ∧
      s.dispatchers =
        [{ pc := .got 1 taskB, parent := 0 }, { pc := .got 2 taskA, parent := 1 }] := by
  obtain ⟨s, hrun, n⟩ := cross_exec atomic pf bodyA bodyB taskA taskB hA hB
  refine ⟨s, ?_, by rw [n.handlers]; rfl, n.dispatchers⟩
  have e : crossSchedule atomic bodyA bodyB = .listen ::
      (([.arrive bodyA, .arrive bodyB, .hStep 0, .hStep 0, .hStep 1, .hStep 1]
          ++ List.replicate (if atomic then 3 else 4) (.dStep 0))
        ++ (List.replicate (if atomic then 3 else 4) (.dStep 1)
          ++ [.handoff 1 0, .handoff 0 1])) := by
    simp [crossSchedule]
  rw [e, run_listen]
  simpa [runMode] using hrun

/-- Witness of C9: the bodies `A` and `B` of the sample decoder. -/
theorem cross_delivery_possible_witness :
    samplePlatform.unmarshal (sampleBody "A") = .ok (sampleTask "A") ∧
    samplePlatform.unmarshal (sampleBody "B") = .ok (sampleTask "B") ∧
    ∃ s, run true samplePlatform init (crossSchedule true (sampleBody "A") (sampleBody "B")) = some s ∧
      s.handlers.map (fun h => h.body) = [sampleBody "A", sampleBody "B"] ∧
      s.dispatchers =
        [{ pc := .got 1 (sampleTask "B"), parent := 0 },
         { pc := .got 2 (sampleTask "A"), parent := 1 }] :=
  ⟨rfl, rfl,
   cross_delivery_possible true samplePlatform (sampleBody "A") (sampleBody "B")
     (sampleTask "A") (sampleTask "B")
     rfl rfl⟩

/-- C10, counterexample to the claim as stated.  First, after `decodedSchedule` one handler
has passed the decoding and has not yet executed its `go` statement, so no dispatcher is
spawned while one invocation has passed decoding.  Second, the counter is a Go `int` and wraps
around even when each increment is atomic: with a 32-bit `int`, after `2 ^ 31` submissions
(`2 ^ 63` with a 64-bit `int`) that many tasks have been received and the counter is the
smallest `int`, below the number of received tasks. -/
theorem counter_chain_fails :
    (run true samplePlatform init decodedSchedule).map
        (fun s => (s.dispatchers.length, s.handlers.countP (fun h => h.pc.decoded)))
      = some (0, 1) ∧
    (∃ s, Reachable true samplePlatform32 s ∧
        s.dispatchers.countP (fun d => d.pc.received) = 2 ^ 31 ∧
        s.dispatched = -2147483648) ∧
    (∃ s, Reachable true samplePlatform s ∧
        s.dispatchers.countP (fun d => d.pc.received) = 2 ^ 63 ∧
        s.dispatched = -9223372036854775808) := by
  refine ⟨by rfl, ?_, ?_⟩
  · obtain ⟨s, hrun, hc, hrec, _⟩ := repeat_run true samplePlatform32 (2 ^ 31) (sampleBody "A")
      (sampleTask "A") rfl
    have hw : wrapInt samplePlatform32.intSize ((2 ^ 31 : Nat) : Int) = -2147483648 := by
      simp only [wrapInt, samplePlatform32, IntSize.half]
      norm_num
    exact ⟨s, runSeq_reachable true samplePlatform32 _ s hrun, hrec, hc.trans hw⟩
  · obtain ⟨s, hrun, hc, hrec, _⟩ := repeat_run true samplePlatform (2 ^ 63) (sampleBody "A")
      (sampleTask "A") rfl
    have hw : wrapInt samplePlatform.intSize ((2 ^ 63 : Nat) : Int) = -9223372036854775808 := by
      simp only [wrapInt, samplePlatform, IntSize.half]
      norm_num
    exact ⟨s, runSeq_reachable true samplePlatform _ s hrun, hrec, hc.trans hw⟩

/-- C10, amended: with atomic increments, in every reachable state in which fewer
dispatchers have been spawned than half the number of values of an `int` (2^31, or 2^63 on a
64-bit platform):
received tasks ≤ counter ≤ dispatchers spawned = handlers that have executed their `go`
statement ≤ handlers that have passed decoding; a dispatcher that has received has incremented
the counter, and the counter is at least the number of completed sends.  Without the bound the
counter is the number of dispatchers that have incremented, wrapped to `int`. -/
theorem counter_chain (pf : Platform) (s : Sys) (hs : Reachable true pf s)
    (hb : s.dispatchers.length < pf.intSize.half) :
    (s.dispatchers.countP (fun d => d.pc.received) : Int) ≤ s.dispatched ∧
    s.dispatched ≤ (s.dispatchers.length : Int) ∧
    s.dispatchers.length = s.handlers.countP (fun h => h.pc.spawned) ∧
    s.handlers.countP (fun h => h.pc.spawned) ≤ s.handlers.countP (fun h => h.pc.decoded) ∧
    (∀ d ∈ s.dispatchers, d.pc.received = true → d.pc.incremented = true) ∧
    (s.handlers.countP (fun h => h.pc.pushed) : Int) ≤ s.dispatched ∧
    s.dispatched = (s.dispatchers.countP (fun d => d.pc.incremented) : Int) ∧
    (∀ r : Sys, Reachable true pf r →
      r.dispatched
        = wrapInt pf.intSize (r.dispatchers.countP (fun d => d.pc.incremented) : Int)) := by
  have hc := reachable_counted pf s hs
  have hex := counted_exact pf s hc hb
  have hbal := reachable_balanced true pf s hs
  have h1 : s.dispatchers.countP (fun d => d.pc.received)
      ≤ s.dispatchers.countP (fun d => d.pc.incremented) :=
    List.countP_mono_left (fun d _ h => received_incremented d.pc h)
  have h2 : s.dispatchers.countP (fun d => d.pc.incremented) ≤ s.dispatchers.length :=
    List.countP_le_length _
  have h3 : s.handlers.countP (fun h => h.pc.spawned)
      ≤ s.handlers.countP (fun h => h.pc.decoded) :=
    List.countP_mono_left (fun h _ hp => spawned_decoded h.pc hp)
  refine ⟨?_, ?_, hbal.spawned, h3, fun d _ h => received_incremented d.pc h, ?_, hex,
    fun r hr => (reachable_counted pf r hr).counter⟩
  · rw [hex]; exact_mod_cast h1
  · rw [hex]; exact_mod_cast h2
  · rw [hex, ← hbal.received]; exact_mod_cast h1

/-- Witness of C10 (amended): a handler blocked in its send while its dispatcher has not yet
run. -/
theorem counter_chain_witness :
    Reachable true samplePlatform pushPending ∧
    pushPending.dispatchers.length < samplePlatform.intSize.half ∧
    pushPending.dispatched ≤ (pushPending.dispatchers.length : Int) :=
  ⟨⟨[.listen, .arrive (sampleBody "A"), .hStep 0, .hStep 0], rfl⟩, by decide,
   (counter_chain samplePlatform pushPending
      ⟨[.listen, .arrive (sampleBody "A"), .hStep 0, .hStep 0], rfl⟩ (by decide)).2.1⟩

end Taskmgr
